import Mathlib

set_option maxHeartbeats 1000000

/-!
Verification development for the parse5 repository (HTML tokenizer spec and
serializer sources).  The serializer definitions below are shallow embeddings
of `packages/parse5/lib/serializer/index.ts`; the tokenizer and preprocessor
definitions further down are modelled from the specification text, since the
tokenizer sources themselves are not part of the excerpt.
-/

namespace Parse5

namespace Serializer

/-- Embeds `NAMESPACES.HTML` from `common/html.js` (value fixed by the WHATWG
namespace table referenced by the serializer source). -/
def NS_HTML : String := "http://www.w3.org/1999/xhtml"

/-- Embeds `NAMESPACES.XML`. -/
def NS_XML : String := "http://www.w3.org/XML/1998/namespace"

/-- Embeds `NAMESPACES.XMLNS`. -/
def NS_XMLNS : String := "http://www.w3.org/2000/xmlns/"

/-- Embeds `NAMESPACES.XLINK`. -/
def NS_XLINK : String := "http://www.w3.org/1999/xlink"

/-- An attribute as seen by the tree adapter: `name`, `value`, optional
`namespace` (field `ns` here, `namespace` is a Lean keyword) and optional
`prefix` (field `pfx`). -/
structure SAttr where
  name : String
  value : String
  ns : Option String := none
  pfx : Option String := none

/-- Tree nodes of the default tree adapter, as consumed by the serializer.
`template` is the HTML-namespace template element of the default adapter: it
owns a content document fragment and has no ordinary child nodes. -/
inductive SNode where
  | element (tagName : String) (namespaceURI : String) (attrs : List SAttr)
      (childNodes : List SNode)
  | template (attrs : List SAttr) (content : List SNode)
  | text (value : String)
  | comment (data : String)
  | documentType (name : String)
  | document (childNodes : List SNode)
  | fragment (childNodes : List SNode)

/-- Embeds `treeAdapter.isElementNode`. -/
def isElementNode : SNode → Bool
  | .element _ _ _ _ => true
  | .template _ _ => true
  | _ => false

/-- Embeds `treeAdapter.isTextNode`. -/
def isTextNode : SNode → Bool
  | .text _ => true
  | _ => false

/-- Embeds `treeAdapter.isCommentNode`. -/
def isCommentNode : SNode → Bool
  | .comment _ => true
  | _ => false

/-- Embeds `treeAdapter.isDocumentTypeNode`. -/
def isDocumentTypeNode : SNode → Bool
  | .documentType _ => true
  | _ => false

/-- Embeds `treeAdapter.getTagName`. -/
def getTagName : SNode → String
  | .element tn _ _ _ => tn
  | .template _ _ => "template"
  | _ => ""

/-- Embeds `treeAdapter.getNamespaceURI`. -/
def getNamespaceURI : SNode → String
  | .element _ nsuri _ _ => nsuri
  | .template _ _ => NS_HTML
  | _ => ""

/-- Embeds `treeAdapter.getAttrList`. -/
def getAttrList : SNode → List SAttr
  | .element _ _ attrs _ => attrs
  | .template attrs _ => attrs
  | _ => []

/-- Embeds `treeAdapter.getTextNodeContent`. -/
def getTextNodeContent : SNode → String
  | .text v => v
  | _ => ""

/-- Embeds `treeAdapter.getCommentNodeContent`. -/
def getCommentNodeContent : SNode → String
  | .comment d => d
  | _ => ""

/-- Embeds `treeAdapter.getDocumentTypeNodeName`. -/
def getDocumentTypeNodeName : SNode → String
  | .documentType n => n
  | _ => ""

/-- Embeds the `VOID_ELEMENTS` set of the serializer source. -/
def VOID_ELEMENTS : List String :=
  ["area", "base", "basefont", "bgsound", "br", "col", "embed", "frame", "hr",
   "img", "input", "keygen", "link", "meta", "param", "source", "track", "wbr"]

/-- Embeds `isVoidElement`: an element node in the HTML namespace whose tag
name is in `VOID_ELEMENTS`. -/
def isVoidElement (node : SNode) : Bool :=
  isElementNode node && decide (getNamespaceURI node = NS_HTML)
    && decide (getTagName node ∈ VOID_ELEMENTS)

/-- Embeds the `UNESCAPED_TEXT` set of the serializer source. -/
def UNESCAPED_TEXT : List String :=
  ["style", "script", "xmp", "iframe", "noembed", "noframes", "plaintext"]

/-- Embeds `hasUnescapedText`. -/
def hasUnescapedText (tn : String) (scriptingEnabled : Bool) : Bool :=
  decide (tn ∈ UNESCAPED_TEXT) || (scriptingEnabled && decide (tn = "noscript"))

/-- Replaces every occurrence of the character `c` in the list with the
replacement list `r`: the semantics of a global single-character regex
replacement such as `str.replace(AMP_REGEX, ...)`. -/
def replaceCharL (c : Char) (r : List Char) (s : List Char) : List Char :=
  s.flatMap (fun a => if a = c then r else [a])

/-- String-level wrapper for `replaceCharL`. -/
def replaceChar (s : String) (c : Char) (r : String) : String :=
  String.mk (replaceCharL c r.data s.data)

/-- Embeds `escapeString`: ampersand and NBSP first, then either the double
quote (attribute mode) or the angle brackets (text mode). -/
def escapeString (str : String) (attrMode : Bool) : String :=
  let str := replaceChar (replaceChar str '&' "&amp;") '\u00A0' "&nbsp;"
  if attrMode then replaceChar str '"' "&quot;"
  else replaceChar (replaceChar str '<' "&lt;") '>' "&gt;"

/-- Serializer options; the tree adapter is fixed to the default one by the
embedding, so only the scripting flag remains. -/
structure SerOpts where
  scriptingEnabled : Bool := true

/-- Embeds `serializeTextNode`.  The JS expression
`parent && treeAdapter.isElementNode(parent) && treeAdapter.getTagName(parent)`
is falsy when the parent is missing, is not an element, or has an empty tag
name; the guard chain below captures exactly that truthiness. -/
def serializeTextNode (options : SerOpts) (parent : Option SNode)
    (content : String) : String :=
  match parent with
  | some p =>
      if isElementNode p && decide (getTagName p ≠ "")
          && decide (getNamespaceURI p = NS_HTML)
          && hasUnescapedText (getTagName p) options.scriptingEnabled then content
      else escapeString content false
  | none => escapeString content false

/-- Embeds `serializeCommentNode`. -/
def serializeCommentNode (data : String) : String :=
  "<!--" ++ data ++ "-->"

/-- Embeds `serializeDocumentTypeNode`. -/
def serializeDocumentTypeNode (name : String) : String :=
  "<!DOCTYPE " ++ name ++ ">"

/-- Embeds one iteration of the attribute loop in `serializeAttributes`,
including the namespace-prefix switch.  A JS template literal renders an
undefined `prefix` as the string `undefined`. -/
def serializeAttr (attr : SAttr) : String :=
  let qualName :=
    match attr.ns with
    | none => attr.name
    | some nsv =>
        if nsv = NS_XML then "xml:" ++ attr.name
        else if nsv = NS_XMLNS then
          (if attr.name ≠ "xmlns" then "xmlns:" ++ attr.name else attr.name)
        else if nsv = NS_XLINK then "xlink:" ++ attr.name
        else
          (match attr.pfx with
           | some p => p
           | none => "undefined") ++ ":" ++ attr.name
  " " ++ qualName ++ "=\"" ++ escapeString attr.value true ++ "\""

/-- Embeds `serializeAttributes`: the fold of `serializeAttr` over the
attribute list. -/
def serializeAttributes (node : SNode) : String :=
  (getAttrList node).foldl (fun html attr => html ++ serializeAttr attr) ""

mutual

/-- Embeds `serializeNode`.  The tree adapter call `getParentNode(node)` of the
source is represented by the explicit `parent` argument threaded through the
recursion (the serializer only ever reads the parent of a text node). -/
def serializeNode (options : SerOpts) (parent : Option SNode) (node : SNode) :
    String :=
  if isElementNode node then serializeElement options node
  else if isTextNode node then
    serializeTextNode options parent (getTextNodeContent node)
  else if isCommentNode node then serializeCommentNode (getCommentNodeContent node)
  else if isDocumentTypeNode node then
    serializeDocumentTypeNode (getDocumentTypeNodeName node)
  else ""
termination_by (sizeOf node, 3)
decreasing_by all_goals omega

/-- Embeds `serializeElement`: open tag, then (unless void) children and the
closing tag. -/
def serializeElement (options : SerOpts) (node : SNode) : String :=
  "<" ++ getTagName node ++ serializeAttributes node ++ ">" ++
    (if isVoidElement node then ""
     else serializeChildNodes options node ++ "</" ++ getTagName node ++ ">")
termination_by (sizeOf node, 2)
decreasing_by all_goals omega

/-- Embeds `serializeChildNodes`: for an HTML `template` element the container
is its content fragment (`getTemplateContent`), for every other node the node
itself; nodes without a `childNodes` list serialize to the empty string. -/
def serializeChildNodes (options : SerOpts) (parentNode : SNode) : String :=
  match parentNode with
  | SNode.template _ content =>
      serializeList options (SNode.fragment content) content
  | SNode.element tn nsuri attrs cs =>
      serializeList options (SNode.element tn nsuri attrs cs) cs
  | SNode.document cs => serializeList options (SNode.document cs) cs
  | SNode.fragment cs => serializeList options (SNode.fragment cs) cs
  | _ => ""
termination_by (sizeOf parentNode, 1)
decreasing_by all_goals (simp_wf; omega)

/-- The child-node loop of `serializeChildNodes`; the container is the parent
seen by each child. -/
def serializeList (options : SerOpts) (container : SNode) (l : List SNode) :
    String :=
  match l with
  | [] => ""
  | c :: rest =>
      serializeNode options (some container) c ++ serializeList options container rest
termination_by (sizeOf l, 0)
decreasing_by all_goals (simp_wf; omega)

end

/-- Embeds `serialize`: a void element serializes to the empty string, any
other node serializes its children. -/
def serialize (options : SerOpts) (node : SNode) : String :=
  if isVoidElement node then "" else serializeChildNodes options node

/-- Embeds `serializeOuter` applied to a node whose parent is not supplied
(`getParentNode` yields null); claims about elements do not consult the
parent. -/
def serializeOuter (options : SerOpts) (node : SNode) : String :=
  serializeNode options none node

/-- Character-by-character description of the escaping claimed in C9: first
ampersand and NBSP, then in attribute mode only the double quote, otherwise
only the angle brackets; every other character is kept unchanged. -/
def escCharSpec (attrMode : Bool) (c : Char) : List Char :=
  if c = '&' then "&amp;".data
  else if c = '\u00A0' then "&nbsp;".data
  else if attrMode then (if c = '"' then "&quot;".data else [c])
  else if c = '<' then "&lt;".data
  else if c = '>' then "&gt;".data
  else [c]

/-- The unescaped-text condition exactly as claim C10 words it: the parent is
an element in the HTML namespace whose tag name is `style`, `script`, `xmp`,
`iframe`, `noembed`, `noframes`, `plaintext`, or is `noscript` while scripting
is enabled. -/
def claimC10Cond (parent : Option SNode) (scriptingEnabled : Bool) : Bool :=
  match parent with
  | some p =>
      isElementNode p && decide (getNamespaceURI p = NS_HTML)
        && (decide (getTagName p ∈
              ["style", "script", "xmp", "iframe", "noembed", "noframes",
               "plaintext"])
            || (decide (getTagName p = "noscript") && scriptingEnabled))
  | none => false

end Serializer

namespace Preproc

/-- Modelled from the spec: the Preprocessor buffer state of §3/§4.1 — the
retained buffer, the absolute offset of its first character within the whole
logical input, a read cursor, the last-chunk flag, and 1-based line/column
counters.  The compaction watermark is passed to the operations. -/
structure PState where
  buffer : List Char
  bufOffset : Nat
  pos : Nat
  lastChunk : Bool
  line : Nat
  col : Nat

/-- Initial preprocessor state. -/
def initP : PState := ⟨[], 0, 0, false, 1, 1⟩

/-- Driver operations: append a chunk (with the last-chunk flag) or consume
one code point. -/
inductive POp where
  | append (chunk : List Char) (isLastChunk : Bool)
  | advance

/-- Observable outcome of one `advance`: a consumed character together with
its absolute offset and line/column, the need-more-data sentinel, or the true
end-of-input marker. -/
inductive PObs where
  | char (c : Char) (absOffset : Nat) (line : Nat) (col : Nat)
  | needMoreData (absOffset : Nat)
  | endOfInput (absOffset : Nat)
deriving DecidableEq, Repr

/-- Modelled from the spec: compaction copies the retained (unconsumed) suffix
to the front of the buffer and rebases the stored offset. -/
def compact (st : PState) : PState :=
  { st with buffer := st.buffer.drop st.pos,
            bufOffset := st.bufOffset + st.pos, pos := 0 }

/-- Modelled from the spec: compaction triggers when the unconsumed suffix
length drops below the watermark. -/
def maybeCompact (waterline : Nat) (st : PState) : PState :=
  if st.buffer.length - st.pos < waterline then compact st else st

/-- Modelled from the spec: `append(chunk, isLastChunk)` appends text to the
retained buffer and records whether more input may still arrive. -/
def appendChunk (st : PState) (chunk : List Char) (isLast : Bool) : PState :=
  { st with buffer := st.buffer ++ chunk, lastChunk := st.lastChunk || isLast }

/-- Modelled from the spec: consume one code point, reporting its absolute
offset and line/column; when the buffer is exhausted report need-more-data or,
if the last chunk was seen, end of input.  Newlines bump the line counter and
reset the column. -/
def advanceP (waterline : Nat) (st : PState) : PObs × PState :=
  if h : st.pos < st.buffer.length then
    let c := st.buffer.get ⟨st.pos, h⟩
    (PObs.char c (st.bufOffset + st.pos) st.line st.col,
     maybeCompact waterline
       { st with pos := st.pos + 1,
                 line := if c = '\n' then st.line + 1 else st.line,
                 col := if c = '\n' then 1 else st.col + 1 })
  else if st.lastChunk then (PObs.endOfInput (st.bufOffset + st.pos), st)
  else (PObs.needMoreData (st.bufOffset + st.pos), st)

/-- Runs a list of driver operations, collecting the observations. -/
def runOps (waterline : Nat) (st : PState) : List POp → List PObs
  | [] => []
  | POp.append chunk isLast :: rest =>
      runOps waterline (appendChunk st chunk isLast) rest
  | POp.advance :: rest =>
      let r := advanceP waterline st
      r.1 :: runOps waterline r.2 rest

/-- Everything an `advance` observation can depend on: the unconsumed suffix,
the absolute consumed offset, the last-chunk flag, and line/column. -/
def proj (st : PState) : List Char × Nat × Bool × Nat × Nat :=
  (st.buffer.drop st.pos, st.bufOffset + st.pos, st.lastChunk, st.line, st.col)

/-- Structural well-formedness: the cursor never passes the buffer end. -/
def PWf (st : PState) : Prop := st.pos ≤ st.buffer.length

end Preproc

namespace Tokenizer

/-- Character subkinds of §3: regular, whitespace-only, and null-character
data are delivered through distinct callbacks and never coalesced together. -/
inductive CharKind where
  | regular
  | whitespace
  | nullChar
deriving DecidableEq, Repr

/-- Whitespace characters as classified by the token model. -/
def isWS (c : Char) : Bool :=
  c = ' ' || c = '\n' || c = '\t' || c = '\u000C'

/-- Subkind of a single character. -/
def kindOf (c : Char) : CharKind :=
  if c = '\u0000' then CharKind.nullChar
  else if isWS c then CharKind.whitespace
  else CharKind.regular

/-- Token location: start and end offsets into the full logical
(line-ending-normalized) input. -/
structure Loc where
  startOffset : Nat
  endOffset : Nat
deriving DecidableEq, Repr

/-- Modelled from the spec: the Token data model of §3 (attribute namespace
prefixes, which never arise at the lexical level, are omitted; doctype
public/system identifiers are collapsed into the name/quirks fields the
simplified doctype states below can produce). -/
inductive Token where
  | character (kind : CharKind) (data : List Char) (loc : Loc)
  | startTag (name : List Char) (attrs : List (List Char × List Char))
      (selfClosing : Bool) (loc : Loc)
  | endTag (name : List Char) (loc : Loc)
  | comment (data : List Char) (loc : Loc)
  | doctype (name : Option (List Char)) (forceQuirks : Bool) (loc : Loc)
  | eof (loc : Loc)
deriving DecidableEq, Repr

/-- Location of a token. -/
def tokLoc : Token → Loc
  | .character _ _ l => l
  | .startTag _ _ _ l => l
  | .endTag _ l => l
  | .comment _ l => l
  | .doctype _ _ l => l
  | .eof l => l

/-- Recognizes the EndOfFile token. -/
def isEofTok : Token → Bool
  | .eof _ => true
  | _ => false

/-- The three raw-text-like modes that share the buffered-end-tag logic. -/
inductive RawKind where
  | rcdata
  | rawtext
  | scriptData
deriving DecidableEq, Repr

/-- A tag token under construction: its start offset, end-tag flag, name,
attributes and self-closing flag. -/
structure TagData where
  start : Nat
  isEnd : Bool
  name : List Char
  attrs : List (List Char × List Char)
  selfClosing : Bool
deriving DecidableEq, Repr

/-- A comment token under construction. -/
structure CommentData where
  start : Nat
  data : List Char
deriving DecidableEq, Repr

/-- A doctype token under construction. -/
structure DoctypeData where
  start : Nat
  name : List Char
deriving DecidableEq, Repr

/-- Modelled from the spec: the lexical states of §3/§4.2 — Data, PLAINTEXT,
the three raw-text modes with their buffered-end-tag sub-states, the tag and
attribute sub-states, the markup-declaration lookahead, the comment and
bogus-comment sub-states, the (simplified) doctype sub-states, and the
CDATA-section states.  Character-reference sub-states are named but given no
transition rules by the spec and are omitted; an ampersand is ordinary
character data in this model. -/
inductive TState where
  | data
  | plaintext
  | rawText (k : RawKind)
  | rawLessThan (k : RawKind)
  | rawEndTagOpen (k : RawKind)
  | rawEndTagName (k : RawKind) (t : TagData) (buf : List Char)
  | tagOpen
  | endTagOpen
  | tagName (t : TagData)
  | beforeAttrName (t : TagData)
  | attrName (t : TagData) (an : List Char)
  | afterAttrName (t : TagData) (an : List Char)
  | beforeAttrValue (t : TagData) (an : List Char)
  | attrValueDq (t : TagData) (an : List Char) (av : List Char)
  | attrValueSq (t : TagData) (an : List Char) (av : List Char)
  | attrValueUq (t : TagData) (an : List Char) (av : List Char)
  | afterAttrValueQuoted (t : TagData)
  | selfClosingStart (t : TagData)
  | mdo (start : Nat) (seen : List Char)
  | commentStart (cd : CommentData)
  | commentStartDash (cd : CommentData)
  | commentBody (cd : CommentData)
  | commentEndDash (cd : CommentData)
  | commentEnd (cd : CommentData)
  | commentEndBang (cd : CommentData)
  | bogusComment (cd : CommentData)
  | doctypeStart (start : Nat)
  | beforeDoctypeName (start : Nat)
  | doctypeName (d : DoctypeData)
  | afterDoctypeName (d : DoctypeData)
  | bogusDoctype (d : DoctypeData)
  | cdataSection
  | cdataBracket
  | cdataEnd
deriving DecidableEq, Repr

/-- Modelled from the spec: the mutable tokenizer registers of §3 — current
state, consumed-count cursor, the location where the current lexical unit
began, the pending coalesced character run (subkind, data, start offset), the
last started tag name, and the foreign-content flag. -/
structure Cfg where
  state : TState
  pos : Nat
  unitStart : Nat
  pending : Option (CharKind × List Char × Nat)
  lastStartTagName : List Char
  inForeignNode : Bool
deriving Repr

/-- Lowercases a character; maps NUL to U+FFFD (used where a NUL would join a
tag or doctype name). -/
def lowNul (c : Char) : Char :=
  if c = '\u0000' then '\uFFFD' else c.toLower

/-- Maps NUL to U+FFFD, leaving every other character unchanged. -/
def replNul (c : Char) : Char :=
  if c = '\u0000' then '\uFFFD' else c

/-- ASCII lowercase of a character list. -/
def lowerList (l : List Char) : List Char := l.map Char.toLower

/-- Emits the pending character run, if any, closing it at `endPos`; the next
lexical unit then starts at `endPos`. -/
def flushPending (cfg : Cfg) (endPos : Nat) : List Token × Cfg :=
  match cfg.pending with
  | none => ([], cfg)
  | some (k, d, s) =>
      ([Token.character k d ⟨s, endPos⟩],
       { cfg with pending := none, unitStart := endPos })

/-- Adds one character to the pending run.  A run of a different subkind is
flushed first, closed at `anchor` — the offset where the new character's
lexical position begins (the live cursor for fresh input, the pending unit
start for characters replayed from a buffer). -/
def appendChar (cfg : Cfg) (c : Char) (anchor : Nat) : List Token × Cfg :=
  let k := kindOf c
  match cfg.pending with
  | none => ([], { cfg with pending := some (k, [c], cfg.unitStart) })
  | some (k0, d, s) =>
      if k0 = k then ([], { cfg with pending := some (k0, d ++ [c], s) })
      else
        ([Token.character k0 d ⟨s, anchor⟩],
         { cfg with pending := some (k, [c], anchor), unitStart := anchor })

/-- Appends a list of characters (a replayed buffer) with a common anchor. -/
def appendList (cfg : Cfg) (cs : List Char) (anchor : Nat) : List Token × Cfg :=
  match cs with
  | [] => ([], cfg)
  | c :: rest =>
      let r := appendChar cfg c anchor
      let r2 := appendList r.2 rest anchor
      (r.1 ++ r2.1, r2.2)

/-- Modelled from the spec: the RCDATA table of §4.2 (escapable raw text). -/
def RCDATA_TAGS : List (List Char) := ["title".data, "textarea".data]

/-- Modelled from the spec: the RAWTEXT table of §4.2. -/
def RAWTEXT_TAGS : List (List Char) :=
  ["style".data, "xmp".data, "iframe".data, "noembed".data, "noframes".data]

/-- Modelled from the spec: mode selection on start-tag completion — RAWTEXT,
RCDATA, ScriptData and PLAINTEXT are entered table-driven off the tag name. -/
def modeForTag (name : List Char) : TState :=
  if name ∈ RCDATA_TAGS then TState.rawText RawKind.rcdata
  else if name ∈ RAWTEXT_TAGS then TState.rawText RawKind.rawtext
  else if name = "script".data then TState.rawText RawKind.scriptData
  else if name = "plaintext".data then TState.plaintext
  else TState.data

/-- Duplicate attribute names are unique in the emitted token; per §3 the last
duplicate wins. -/
def pushAttr (attrs : List (List Char × List Char)) (an av : List Char) :
    List (List Char × List Char) :=
  if attrs.any (fun a => a.1 == an) then
    attrs.map (fun a => if a.1 == an then (an, av) else a)
  else attrs ++ [(an, av)]

/-- Emits a completed tag token: the pending characters are flushed closed at
the tag's start, a start tag updates `lastStartTagName` and selects the next
mode from the tag-name table, an end tag returns to Data. -/
def emitTagToken (cfg : Cfg) (t : TagData) (endPos : Nat) : List Token × Cfg :=
  let r := flushPending cfg t.start
  let tok := if t.isEnd then Token.endTag t.name ⟨t.start, endPos⟩
             else Token.startTag t.name t.attrs t.selfClosing ⟨t.start, endPos⟩
  (r.1 ++ [tok],
   { r.2 with unitStart := endPos,
              lastStartTagName :=
                if t.isEnd then r.2.lastStartTagName else t.name,
              state := if t.isEnd then TState.data else modeForTag t.name })

/-- Emits a completed comment token. -/
def emitCommentTok (cfg : Cfg) (cd : CommentData) (endPos : Nat) :
    List Token × Cfg :=
  let r := flushPending cfg cd.start
  (r.1 ++ [Token.comment cd.data ⟨cd.start, endPos⟩],
   { r.2 with unitStart := endPos, state := TState.data })

/-- Emits a completed doctype token. -/
def emitDoctypeTok (cfg : Cfg) (start : Nat) (name : Option (List Char))
    (fq : Bool) (endPos : Nat) : List Token × Cfg :=
  let r := flushPending cfg start
  (r.1 ++ [Token.doctype name fq ⟨start, endPos⟩],
   { r.2 with unitStart := endPos, state := TState.data })

/-- Tests whether the first list is an initial segment of the second. -/
def leadsTo : List Char → List Char → Bool
  | [], _ => true
  | _ :: _, [] => false
  | a :: as, b :: bs => a == b && leadsTo as bs

/-- Partial matches of the three markup-declaration keywords. -/
def isCandidate (s : List Char) : Bool :=
  leadsTo s "--".data || leadsTo (lowerList s) "doctype".data
    || leadsTo s "[CDATA[".data

/-- Modelled from the spec: one transition of the state machine on the input
character `c`, which sits at offset `cfg.pos`.  Reconsume transitions of the
WHATWG machine are inlined into the state that triggers them; the cursor
advance itself is applied by `step`. -/
def stepCore (cfg : Cfg) (c : Char) : List Token × Cfg :=
  let p := cfg.pos
  match cfg.state with
  | .data =>
      if c = '<' then ([], { cfg with state := .tagOpen, unitStart := p })
      else appendChar cfg c p
  | .plaintext => appendChar cfg c p
  | .rawText k =>
      if c = '<' then ([], { cfg with state := .rawLessThan k, unitStart := p })
      else appendChar cfg c p
  | .rawLessThan k =>
      if c = '/' then ([], { cfg with state := .rawEndTagOpen k })
      else
        let r := appendList cfg ['<'] cfg.unitStart
        if c = '<' then (r.1, { r.2 with state := .rawLessThan k, unitStart := p })
        else
          let r2 := appendChar r.2 c p
          (r.1 ++ r2.1, { r2.2 with state := .rawText k })
  | .rawEndTagOpen k =>
      if c.isAlpha then
        ([], { cfg with state := TState.rawEndTagName k ⟨cfg.unitStart, true, [c.toLower], [], false⟩ [c] })
      else
        let r := appendList cfg ['<', '/'] cfg.unitStart
        if c = '<' then (r.1, { r.2 with state := .rawLessThan k, unitStart := p })
        else
          let r2 := appendChar r.2 c p
          (r.1 ++ r2.1, { r2.2 with state := .rawText k })
  | .rawEndTagName k t buf =>
      if c.isAlpha then
        ([], { cfg with state := TState.rawEndTagName k { t with name := t.name ++ [c.toLower] } (buf ++ [c]) })
      else if t.name = lowerList cfg.lastStartTagName ∧ isWS c then
        ([], { cfg with state := .beforeAttrName t })
      else if t.name = lowerList cfg.lastStartTagName ∧ c = '/' then
        ([], { cfg with state := .selfClosingStart t })
      else if t.name = lowerList cfg.lastStartTagName ∧ c = '>' then
        emitTagToken cfg t (p + 1)
      else
        let r := appendList cfg ('<' :: '/' :: buf) cfg.unitStart
        if c = '<' then (r.1, { r.2 with state := .rawLessThan k, unitStart := p })
        else
          let r2 := appendChar r.2 c p
          (r.1 ++ r2.1, { r2.2 with state := .rawText k })
  | .tagOpen =>
      if c = '!' then ([], { cfg with state := .mdo cfg.unitStart [] })
      else if c = '/' then ([], { cfg with state := .endTagOpen })
      else if c = '?' then
        ([], { cfg with state := .bogusComment ⟨cfg.unitStart, ['?']⟩ })
      else if c.isAlpha then
        ([], { cfg with state := TState.tagName ⟨cfg.unitStart, false, [c.toLower], [], false⟩ })
      else
        let r := appendList cfg ['<'] cfg.unitStart
        if c = '<' then (r.1, { r.2 with state := .tagOpen, unitStart := p })
        else
          let r2 := appendChar r.2 c p
          (r.1 ++ r2.1, { r2.2 with state := .data })
  | .endTagOpen =>
      if c.isAlpha then
        ([], { cfg with state := TState.tagName ⟨cfg.unitStart, true, [c.toLower], [], false⟩ })
      else if c = '>' then ([], { cfg with state := .data })
      else ([], { cfg with state := .bogusComment ⟨cfg.unitStart, [replNul c]⟩ })
  | .tagName t =>
      if isWS c then ([], { cfg with state := .beforeAttrName t })
      else if c = '/' then ([], { cfg with state := .selfClosingStart t })
      else if c = '>' then emitTagToken cfg t (p + 1)
      else ([], { cfg with state := .tagName { t with name := t.name ++ [lowNul c] } })
  | .beforeAttrName t =>
      if isWS c then ([], cfg)
      else if c = '/' then ([], { cfg with state := .selfClosingStart t })
      else if c = '>' then emitTagToken cfg t (p + 1)
      else ([], { cfg with state := .attrName t [lowNul c] })
  | .attrName t an =>
      if isWS c then ([], { cfg with state := .afterAttrName t an })
      else if c = '/' then
        ([], { cfg with state := TState.selfClosingStart { t with attrs := pushAttr t.attrs an [] } })
      else if c = '>' then
        emitTagToken cfg { t with attrs := pushAttr t.attrs an [] } (p + 1)
      else if c = '=' then ([], { cfg with state := .beforeAttrValue t an })
      else ([], { cfg with state := .attrName t (an ++ [lowNul c]) })
  | .afterAttrName t an =>
      if isWS c then ([], cfg)
      else if c = '/' then
        ([], { cfg with state := TState.selfClosingStart { t with attrs := pushAttr t.attrs an [] } })
      else if c = '=' then ([], { cfg with state := .beforeAttrValue t an })
      else if c = '>' then
        emitTagToken cfg { t with attrs := pushAttr t.attrs an [] } (p + 1)
      else
        ([], { cfg with state := TState.attrName { t with attrs := pushAttr t.attrs an [] } [lowNul c] })
  | .beforeAttrValue t an =>
      if isWS c then ([], cfg)
      else if c = '"' then ([], { cfg with state := .attrValueDq t an [] })
      else if c = '\'' then ([], { cfg with state := .attrValueSq t an [] })
      else if c = '>' then
        emitTagToken cfg { t with attrs := pushAttr t.attrs an [] } (p + 1)
      else ([], { cfg with state := .attrValueUq t an [replNul c] })
  | .attrValueDq t an av =>
      if c = '"' then
        ([], { cfg with state := TState.afterAttrValueQuoted { t with attrs := pushAttr t.attrs an av } })
      else ([], { cfg with state := .attrValueDq t an (av ++ [replNul c]) })
  | .attrValueSq t an av =>
      if c = '\'' then
        ([], { cfg with state := TState.afterAttrValueQuoted { t with attrs := pushAttr t.attrs an av } })
      else ([], { cfg with state := .attrValueSq t an (av ++ [replNul c]) })
  | .attrValueUq t an av =>
      if isWS c then
        ([], { cfg with state := TState.beforeAttrName { t with attrs := pushAttr t.attrs an av } })
      else if c = '>' then
        emitTagToken cfg { t with attrs := pushAttr t.attrs an av } (p + 1)
      else ([], { cfg with state := .attrValueUq t an (av ++ [replNul c]) })
  | .afterAttrValueQuoted t =>
      if isWS c then ([], { cfg with state := .beforeAttrName t })
      else if c = '/' then ([], { cfg with state := .selfClosingStart t })
      else if c = '>' then emitTagToken cfg t (p + 1)
      else ([], { cfg with state := .attrName t [lowNul c] })
  | .selfClosingStart t =>
      if c = '>' then emitTagToken cfg { t with selfClosing := true } (p + 1)
      else if isWS c then ([], { cfg with state := .beforeAttrName t })
      else if c = '/' then ([], { cfg with state := .selfClosingStart t })
      else ([], { cfg with state := .attrName t [lowNul c] })
  | .mdo start seen =>
      let s2 := seen ++ [c]
      if s2 = "--".data then ([], { cfg with state := .commentStart ⟨start, []⟩ })
      else if lowerList s2 = "doctype".data then
        ([], { cfg with state := .doctypeStart start })
      else if s2 = "[CDATA[".data then
        if cfg.inForeignNode then ([], { cfg with state := .cdataSection })
        else ([], { cfg with state := .bogusComment ⟨start, s2⟩ })
      else if isCandidate s2 then ([], { cfg with state := .mdo start s2 })
      else if c = '>' then emitCommentTok cfg ⟨start, seen⟩ (p + 1)
      else ([], { cfg with state := .bogusComment ⟨start, seen ++ [replNul c]⟩ })
  | .commentStart cd =>
      if c = '-' then ([], { cfg with state := .commentStartDash cd })
      else if c = '>' then emitCommentTok cfg cd (p + 1)
      else
        ([], { cfg with state := .commentBody ⟨cd.start, cd.data ++ [replNul c]⟩ })
  | .commentStartDash cd =>
      if c = '-' then ([], { cfg with state := .commentEnd cd })
      else if c = '>' then emitCommentTok cfg cd (p + 1)
      else
        ([], { cfg with state := TState.commentBody ⟨cd.start, cd.data ++ '-' :: [replNul c]⟩ })
  | .commentBody cd =>
      if c = '-' then ([], { cfg with state := .commentEndDash cd })
      else
        ([], { cfg with state := .commentBody ⟨cd.start, cd.data ++ [replNul c]⟩ })
  | .commentEndDash cd =>
      if c = '-' then ([], { cfg with state := .commentEnd cd })
      else
        ([], { cfg with state := TState.commentBody ⟨cd.start, cd.data ++ '-' :: [replNul c]⟩ })
  | .commentEnd cd =>
      if c = '>' then emitCommentTok cfg cd (p + 1)
      else if c = '!' then ([], { cfg with state := .commentEndBang cd })
      else if c = '-' then
        ([], { cfg with state := .commentEnd ⟨cd.start, cd.data ++ ['-']⟩ })
      else
        ([], { cfg with state := TState.commentBody ⟨cd.start, cd.data ++ '-' :: '-' :: [replNul c]⟩ })
  | .commentEndBang cd =>
      if c = '-' then
        ([], { cfg with state := TState.commentEndDash ⟨cd.start, cd.data ++ "--!".data⟩ })
      else if c = '>' then emitCommentTok cfg cd (p + 1)
      else
        ([], { cfg with state := TState.commentBody ⟨cd.start, cd.data ++ "--!".data ++ [replNul c]⟩ })
  | .bogusComment cd =>
      if c = '>' then emitCommentTok cfg cd (p + 1)
      else
        ([], { cfg with state := .bogusComment ⟨cd.start, cd.data ++ [replNul c]⟩ })
  | .doctypeStart start =>
      if isWS c then ([], { cfg with state := .beforeDoctypeName start })
      else if c = '>' then emitDoctypeTok cfg start none true (p + 1)
      else ([], { cfg with state := .doctypeName ⟨start, [lowNul c]⟩ })
  | .beforeDoctypeName start =>
      if isWS c then ([], cfg)
      else if c = '>' then emitDoctypeTok cfg start none true (p + 1)
      else ([], { cfg with state := .doctypeName ⟨start, [lowNul c]⟩ })
  | .doctypeName d =>
      if isWS c then ([], { cfg with state := .afterDoctypeName d })
      else if c = '>' then emitDoctypeTok cfg d.start (some d.name) false (p + 1)
      else ([], { cfg with state := .doctypeName ⟨d.start, d.name ++ [lowNul c]⟩ })
  | .afterDoctypeName d =>
      if isWS c then ([], cfg)
      else if c = '>' then emitDoctypeTok cfg d.start (some d.name) false (p + 1)
      else ([], { cfg with state := .bogusDoctype d })
  | .bogusDoctype d =>
      if c = '>' then emitDoctypeTok cfg d.start (some d.name) true (p + 1)
      else ([], cfg)
  | .cdataSection =>
      if c = ']' then ([], { cfg with state := .cdataBracket })
      else appendChar cfg c p
  | .cdataBracket =>
      if c = ']' then ([], { cfg with state := .cdataEnd })
      else
        let r := appendList cfg [']'] cfg.unitStart
        let r2 := appendChar r.2 c p
        (r.1 ++ r2.1, { r2.2 with state := .cdataSection })
  | .cdataEnd =>
      if c = '>' then ([], { cfg with state := .data })
      else if c = ']' then
        let r := appendList cfg [']'] cfg.unitStart
        (r.1, { r.2 with state := .cdataEnd })
      else
        let r := appendList cfg [']', ']'] cfg.unitStart
        let r2 := appendChar r.2 c p
        (r.1 ++ r2.1, { r2.2 with state := .cdataSection })

/-- One consumed character: the transition of `stepCore` followed by the
uniform cursor advance. -/
def step (cfg : Cfg) (c : Char) : List Token × Cfg :=
  let r := stepCore cfg c
  (r.1, { r.2 with pos := cfg.pos + 1 })

/-- Composition used by `finalize`: previously produced tokens followed by the
pending-character flush at end of input. -/
def flushThrough (r : List Token × Cfg) (endPos : Nat) : List Token × Cfg :=
  let r2 := flushPending r.2 endPos
  (r.1 ++ r2.1, r2.2)

/-- Modelled from the spec: end-of-input behaviour.  Partial tags are
discarded, partial comments and doctypes are emitted, buffered raw-mode end
tag candidates are replayed as character data, the pending run is flushed, and
the single EndOfFile token closes the stream at the total consumed length. -/
def finalize (cfg : Cfg) : List Token :=
  let n := cfg.pos
  let r : List Token × Cfg :=
    match cfg.state with
    | .data => flushPending cfg n
    | .plaintext => flushPending cfg n
    | .rawText _ => flushPending cfg n
    | .cdataSection => flushPending cfg n
    | .tagOpen => flushThrough (appendList cfg ['<'] cfg.unitStart) n
    | .endTagOpen => flushThrough (appendList cfg ['<', '/'] cfg.unitStart) n
    | .rawLessThan _ => flushThrough (appendList cfg ['<'] cfg.unitStart) n
    | .rawEndTagOpen _ => flushThrough (appendList cfg ['<', '/'] cfg.unitStart) n
    | .rawEndTagName _ _ buf =>
        flushThrough (appendList cfg ('<' :: '/' :: buf) cfg.unitStart) n
    | .tagName _ => flushPending cfg n
    | .beforeAttrName _ => flushPending cfg n
    | .attrName _ _ => flushPending cfg n
    | .afterAttrName _ _ => flushPending cfg n
    | .beforeAttrValue _ _ => flushPending cfg n
    | .attrValueDq _ _ _ => flushPending cfg n
    | .attrValueSq _ _ _ => flushPending cfg n
    | .attrValueUq _ _ _ => flushPending cfg n
    | .afterAttrValueQuoted _ => flushPending cfg n
    | .selfClosingStart _ => flushPending cfg n
    | .mdo start seen => emitCommentTok cfg ⟨start, seen⟩ n
    | .commentStart cd => emitCommentTok cfg cd n
    | .commentStartDash cd => emitCommentTok cfg cd n
    | .commentBody cd => emitCommentTok cfg cd n
    | .commentEndDash cd => emitCommentTok cfg cd n
    | .commentEnd cd => emitCommentTok cfg cd n
    | .commentEndBang cd => emitCommentTok cfg cd n
    | .bogusComment cd => emitCommentTok cfg cd n
    | .doctypeStart start => emitDoctypeTok cfg start none true n
    | .beforeDoctypeName start => emitDoctypeTok cfg start none true n
    | .doctypeName d => emitDoctypeTok cfg d.start (some d.name) true n
    | .afterDoctypeName d => emitDoctypeTok cfg d.start (some d.name) true n
    | .bogusDoctype d => emitDoctypeTok cfg d.start (some d.name) true n
    | .cdataBracket => flushThrough (appendList cfg [']'] cfg.unitStart) n
    | .cdataEnd => flushThrough (appendList cfg [']', ']'] cfg.unitStart) n
  r.1 ++ [Token.eof ⟨n, n⟩]

/-- Runs the machine over the remaining input. -/
def run (cfg : Cfg) : List Char → List Token
  | [] => finalize cfg
  | c :: rest =>
      let r := step cfg c
      r.1 ++ run r.2 rest

/-- Initial configuration: the externally seeded state, last start tag name
and foreign-content flag of §4.2/§6. -/
def initCfg (st : TState) (lastTag : List Char) (foreign : Bool) : Cfg :=
  ⟨st, 0, 0, none, lastTag, foreign⟩

/-- Tokenizes a complete logical (already line-ending-normalized) input. -/
def tokenize (st : TState) (lastTag : List Char) (foreign : Bool)
    (input : List Char) : List Token :=
  run (initCfg st lastTag foreign) input

/-- Modelled from the spec: incremental line-ending normalization of §4.1.
`carry` records a CR seen at the end of the previous text whose fate depends
on the next character: CR LF collapses to one LF, a lone CR becomes LF. -/
def normChar (acc : List Char) (carry : Bool) (c : Char) : List Char × Bool :=
  if carry then
    if c = '\n' then (acc ++ ['\n'], false)
    else if c = '\r' then (acc ++ ['\n'], true)
    else (acc ++ ['\n', c], false)
  else if c = '\r' then (acc, true)
  else (acc ++ [c], false)

/-- Uncurried step for folding `normChar`. -/
def normStep (s : List Char × Bool) (c : Char) : List Char × Bool :=
  normChar s.1 s.2 c

/-- Resolves a carried CR at true end of input (`isLastChunk` set): it
normalizes immediately to LF. -/
def normFinish (s : List Char × Bool) : List Char :=
  if s.2 then s.1 ++ ['\n'] else s.1

/-- The full logical input of a chunked session: each chunk is appended with
the carry crossing the chunk boundaries untouched, and the final carry is
resolved because the last `write` sets `isLastChunk`. -/
def normChunks (chunks : List (List Char)) : List Char :=
  normFinish (chunks.foldl (fun s chunk => chunk.foldl normStep s) ([], false))

/-- Whole-text line-ending normalization, written as direct recursion:
CR LF and lone CR both become LF. -/
def normDirect : List Char → List Char
  | [] => []
  | [c] => if c = '\r' then ['\n'] else [c]
  | c :: d :: rest =>
      if c = '\r' then
        if d = '\n' then '\n' :: normDirect rest
        else '\n' :: normDirect (d :: rest)
      else c :: normDirect (d :: rest)

/-- Drops one leading LF (the second half of a CR LF pair split by the
carry). -/
def dropLF : List Char → List Char
  | '\n' :: r => r
  | l => l

/-- Modelled from the spec: the pull loop between two writes.  `getNextToken`
consumes the available characters one at a time, emitting completed tokens,
until the preprocessor is exhausted; it then suspends on the need-more-data
sentinel without committing any transition, retaining the full machine
configuration (lexical state, pending run, buffered end-tag candidate,
cursor) so the next `write` resumes exactly where tokenization stopped. -/
def feed (cfg : Cfg) : List Char → List Token × Cfg
  | [] => ([], cfg)
  | c :: rest =>
      let r := step cfg c
      let r2 := feed r.2 rest
      (r.1 ++ r2.1, r2.2)

/-- Modelled from the spec: the `write`/`getNextToken` alternation of a
chunked session.  Each write normalizes the newly arrived text against the
carried CR — a chunk-final CR stays carried, because its fate depends on the
next chunk's first character — and the pull loop (`feed`) consumes exactly
the characters made available, suspending with its state at the chunk
boundary.  After the last write (`isLastChunk` set) a carried CR normalizes
immediately to LF, and definite end of input lets `finalize` flush and emit
EndOfFile. -/
def sessionRun (cfg : Cfg) (carry : Bool) : List (List Char) → List Token
  | [] =>
      let r := feed cfg (if carry then ['\n'] else [])
      r.1 ++ finalize r.2
  | chunk :: rest =>
      let n := chunk.foldl normStep ([], carry)
      let r := feed cfg n.1
      r.1 ++ sessionRun r.2 n.2 rest

/-- The token stream of a full chunked session: all chunks are written in
order (the last one with `isLastChunk`) and tokens are pulled to
completion, the machine configuration and the normalization carry persisting
across every chunk boundary. -/
def sessionTokens (st : TState) (lastTag : List Char) (foreign : Bool)
    (chunks : List (List Char)) : List Token :=
  sessionRun (initCfg st lastTag foreign) false chunks

/-- Character data carried by a token (empty for non-character tokens). -/
def charData : Token → List Char
  | .character _ d _ => d
  | _ => []

/-- Recognizes character tokens. -/
def isCharTok : Token → Bool
  | .character _ _ _ => true
  | _ => false

/-- The lower bound for the next emitted location: the pending character
run's start if one is open, otherwise the current unit start. -/
def low (cfg : Cfg) : Nat :=
  match cfg.pending with
  | some (_, _, s) => s
  | none => cfg.unitStart

/-- The token under construction recorded in a state starts at the current
unit start; states that build no token are unconstrained. -/
def stStartOK : TState → Nat → Prop
  | .rawEndTagName _ t _, u => t.start = u
  | .tagName t, u => t.start = u
  | .beforeAttrName t, u => t.start = u
  | .attrName t _, u => t.start = u
  | .afterAttrName t _, u => t.start = u
  | .beforeAttrValue t _, u => t.start = u
  | .attrValueDq t _ _, u => t.start = u
  | .attrValueSq t _ _, u => t.start = u
  | .attrValueUq t _ _, u => t.start = u
  | .afterAttrValueQuoted t, u => t.start = u
  | .selfClosingStart t, u => t.start = u
  | .mdo s _, u => s = u
  | .commentStart cd, u => cd.start = u
  | .commentStartDash cd, u => cd.start = u
  | .commentBody cd, u => cd.start = u
  | .commentEndDash cd, u => cd.start = u
  | .commentEnd cd, u => cd.start = u
  | .commentEndBang cd, u => cd.start = u
  | .bogusComment cd, u => cd.start = u
  | .doctypeStart s, u => s = u
  | .beforeDoctypeName s, u => s = u
  | .doctypeName d, u => d.start = u
  | .afterDoctypeName d, u => d.start = u
  | .bogusDoctype d, u => d.start = u
  | _, _ => True

/-- Machine invariant: the pending run starts no later than the unit start,
the unit start never passes the cursor, and any under-construction token
starts at the unit start. -/
def Inv (cfg : Cfg) : Prop :=
  low cfg ≤ cfg.unitStart ∧ cfg.unitStart ≤ cfg.pos ∧
    stStartOK cfg.state cfg.unitStart

/-- Token locations chain between two bounds: each token starts no earlier
than the previous one ended, each span is non-degenerate, and the last end
stays below the upper bound. -/
def Chain : Nat → List Token → Nat → Prop
  | k, [], k2 => k ≤ k2
  | k, t :: rest, k2 =>
      k ≤ (tokLoc t).startOffset ∧ (tokLoc t).startOffset ≤ (tokLoc t).endOffset ∧
        Chain (tokLoc t).endOffset rest k2

/-- Contract of one `stepCore` transition: emitted locations chain from the
old lower bound to the new one, the new unit start stays behind the next
cursor position, the payload invariant is re-established, the cursor is
untouched (it moves in `step`), and EndOfFile is never emitted. -/
def StepOut (cfg : Cfg) (out : List Token × Cfg) : Prop :=
  Chain (low cfg) out.1 (low out.2) ∧
  low out.2 ≤ out.2.unitStart ∧
  out.2.unitStart ≤ cfg.pos + 1 ∧
  stStartOK out.2.state out.2.unitStart ∧
  out.2.pos = cfg.pos ∧
  ∀ t ∈ out.1, isEofTok t = false

/-- Modelled from the spec: the externally settable `TokenizerMode`
constants of §6 used to seed the machine. -/
inductive TokenizerMode where
  | DATA
  | RCDATA
  | RAWTEXT
  | SCRIPT_DATA
  | PLAINTEXT
  | CDATA_SECTION
deriving DecidableEq, Repr

/-- The lexical state a mode constant seeds. -/
def modeState : TokenizerMode → TState
  | .DATA => TState.data
  | .RCDATA => TState.rawText RawKind.rcdata
  | .RAWTEXT => TState.rawText RawKind.rawtext
  | .SCRIPT_DATA => TState.rawText RawKind.scriptData
  | .PLAINTEXT => TState.plaintext
  | .CDATA_SECTION => TState.cdataSection

end Tokenizer

namespace Serializer

/-- Claim C8: for every node whose tag name is in the void-element set and
whose namespace is HTML, `serialize` returns the empty string, and
`serializeOuter` of such a node emits only the open tag with attributes, with
no children and no closing tag. -/
theorem claim_C8 (tn : String) (attrs : List SAttr) (children : List SNode)
    (options : SerOpts) (h : tn ∈ VOID_ELEMENTS) :
    serialize options (SNode.element tn NS_HTML attrs children) = "" ∧
    serializeOuter options (SNode.element tn NS_HTML attrs children) =
      "<" ++ tn ++ serializeAttributes (SNode.element tn NS_HTML attrs children)
        ++ ">" := by
  have hv : isVoidElement (SNode.element tn NS_HTML attrs children) = true := by
    simp [isVoidElement, isElementNode, getNamespaceURI, getTagName, h]
  refine ⟨by simp [serialize, hv], ?_⟩
  rw [serializeOuter, serializeNode, serializeElement]
  simp [isElementNode, hv, getTagName]

/-- Concrete instance of claim C8 at the void element `br`. -/
theorem claim_C8_witness :
    ("br" ∈ VOID_ELEMENTS) ∧
    (serialize {} (SNode.element "br" NS_HTML [] []) = "" ∧
     serializeOuter {} (SNode.element "br" NS_HTML [] []) =
       "<" ++ "br" ++ serializeAttributes (SNode.element "br" NS_HTML [] [])
         ++ ">") :=
  ⟨by decide, claim_C8 "br" [] [] {} (by decide)⟩

/-- Claim C9: `escapeString` is exactly the character-wise map `escCharSpec`:
the chained whole-string replacements change no other characters and do not
interfere with each other. -/
theorem claim_C9 (str : String) (attrMode : Bool) :
    escapeString str attrMode = String.mk (str.data.flatMap (escCharSpec attrMode)) := by
  have key : ∀ (l : List Char),
      (if attrMode then
        replaceCharL '"' "&quot;".data
          (replaceCharL '\u00A0' "&nbsp;".data (replaceCharL '&' "&amp;".data l))
       else
        replaceCharL '>' "&gt;".data
          (replaceCharL '<' "&lt;".data
            (replaceCharL '\u00A0' "&nbsp;".data (replaceCharL '&' "&amp;".data l))))
        = l.flatMap (escCharSpec attrMode) := by
    intro l
    simp only [replaceCharL, List.flatMap_assoc]
    cases attrMode with
    | false =>
        simp only [if_neg (Bool.false_ne_true)]
        refine congrArg (List.flatMap l) (funext fun a => ?_)
        by_cases h1 : a = '&'
        · subst h1; decide
        by_cases h2 : a = '\u00A0'
        · subst h2; decide
        by_cases h3 : a = '<'
        · subst h3; decide
        by_cases h4 : a = '>'
        · subst h4; decide
        simp [escCharSpec, h1, h2, h3, h4]
    | true =>
        simp only [if_pos rfl]
        refine congrArg (List.flatMap l) (funext fun a => ?_)
        by_cases h1 : a = '&'
        · subst h1; decide
        by_cases h2 : a = '\u00A0'
        · subst h2; decide
        by_cases h3 : a = '"'
        · subst h3; decide
        simp [escCharSpec, h1, h2, h3]
  cases attrMode with
  | false =>
      simpa [escapeString, replaceChar] using congrArg String.mk
        (by simpa using key str.data)
  | true =>
      simpa [escapeString, replaceChar] using congrArg String.mk
        (by simpa using key str.data)

/-- Claim C10: a text node is emitted verbatim exactly when `claimC10Cond`
holds of its parent, and otherwise goes through `escapeString` in text mode. -/
theorem claim_C10 (parent : Option SNode) (scriptingEnabled : Bool)
    (content : String) :
    serializeTextNode { scriptingEnabled := scriptingEnabled } parent content =
      (if claimC10Cond parent scriptingEnabled then content
       else escapeString content false) := by
  match parent with
  | none => simp [serializeTextNode, claimC10Cond]
  | some p =>
      cases p with
      | element tn nsuri attrs cs =>
          by_cases hns : nsuri = NS_HTML
          · subst hns
            by_cases he : tn = ""
            · subst he
              simp [serializeTextNode, claimC10Cond, isElementNode, getTagName,
                getNamespaceURI, hasUnescapedText, UNESCAPED_TEXT]
            · simp [serializeTextNode, claimC10Cond, isElementNode, getTagName,
                getNamespaceURI, hasUnescapedText, UNESCAPED_TEXT, he, and_comm]
          · simp [serializeTextNode, claimC10Cond, isElementNode, getTagName,
              getNamespaceURI, hns]
      | template attrs content2 =>
          simp [serializeTextNode, claimC10Cond, isElementNode, getTagName,
            getNamespaceURI, hasUnescapedText, UNESCAPED_TEXT]
      | text v => simp [serializeTextNode, claimC10Cond, isElementNode]
      | comment d => simp [serializeTextNode, claimC10Cond, isElementNode]
      | documentType n => simp [serializeTextNode, claimC10Cond, isElementNode]
      | document cs => simp [serializeTextNode, claimC10Cond, isElementNode]
      | fragment cs => simp [serializeTextNode, claimC10Cond, isElementNode]

/-- Concrete instance of claim C10: text under a `script` parent is verbatim. -/
theorem claim_C10_witness :
    serializeTextNode { scriptingEnabled := true }
        (some (SNode.element "script" NS_HTML [] [])) "a < b" =
      (if claimC10Cond (some (SNode.element "script" NS_HTML [] [])) true
       then "a < b" else escapeString "a < b" false) :=
  claim_C10 (some (SNode.element "script" NS_HTML [] [])) true "a < b"

end Serializer

namespace Preproc

theorem proj_maybeCompact (w : Nat) (st : PState) :
    proj (maybeCompact w st) = proj st := by
  unfold maybeCompact compact proj
  split <;> simp

theorem pwf_maybeCompact (w : Nat) (st : PState) (h : PWf st) :
    PWf (maybeCompact w st) := by
  unfold maybeCompact compact PWf at *
  split
  · simp
  · exact h

theorem pwf_appendChunk (st : PState) (chunk : List Char) (isLast : Bool)
    (h : PWf st) : PWf (appendChunk st chunk isLast) := by
  unfold PWf appendChunk at *
  simp
  omega

theorem proj_appendChunk (st1 st2 : PState) (h1 : PWf st1) (h2 : PWf st2)
    (h : proj st1 = proj st2) (chunk : List Char) (isLast : Bool) :
    proj (appendChunk st1 chunk isLast) = proj (appendChunk st2 chunk isLast) := by
  unfold proj appendChunk PWf at *
  simp only [Prod.mk.injEq] at h ⊢
  obtain ⟨hd, ho, hl, hln, hc⟩ := h
  refine ⟨?_, ho, by simp [hl], hln, hc⟩
  rw [List.drop_append_eq_append_drop, List.drop_append_eq_append_drop,
    Nat.sub_eq_zero_of_le h1, Nat.sub_eq_zero_of_le h2, hd]

theorem advance_sim (w1 w2 : Nat) (st1 st2 : PState) (h1 : PWf st1)
    (h2 : PWf st2) (h : proj st1 = proj st2) :
    (advanceP w1 st1).1 = (advanceP w2 st2).1 ∧
    proj (advanceP w1 st1).2 = proj (advanceP w2 st2).2 ∧
    PWf (advanceP w1 st1).2 ∧ PWf (advanceP w2 st2).2 := by
  unfold proj at h
  simp only [Prod.mk.injEq] at h
  obtain ⟨hd, ho, hl, hln, hc⟩ := h
  unfold advanceP
  by_cases p1 : st1.pos < st1.buffer.length
  · have p2 : st2.pos < st2.buffer.length := by
      by_contra hk
      have : st2.buffer.drop st2.pos = [] := List.drop_eq_nil_iff.mpr (by omega)
      rw [this] at hd
      have : st1.buffer.drop st1.pos ≠ [] := by
        intro hq
        have := List.drop_eq_nil_iff.mp hq
        omega
      exact this hd
    have e1 := List.drop_eq_getElem_cons p1
    have e2 := List.drop_eq_getElem_cons p2
    rw [e1, e2] at hd
    injection hd with hdc hdr
    simp only [dif_pos p1, dif_pos p2]
    have hget : st1.buffer.get ⟨st1.pos, p1⟩ = st2.buffer.get ⟨st2.pos, p2⟩ := by
      simpa using hdc
    refine ⟨by rw [hget, ho, hln, hc], ?_, ?_, ?_⟩
    · rw [proj_maybeCompact, proj_maybeCompact]
      unfold proj
      simp only [Prod.mk.injEq]
      exact ⟨by simpa using hdr, by omega, hl, by rw [hget, hln], by rw [hget, hc]⟩
    · exact pwf_maybeCompact _ _ (by unfold PWf; simpa using p1)
    · exact pwf_maybeCompact _ _ (by unfold PWf; simpa using p2)
  · have p2 : ¬ st2.pos < st2.buffer.length := by
      intro hk
      have e2 := List.drop_eq_getElem_cons hk
      rw [e2] at hd
      have : st1.buffer.drop st1.pos = [] := List.drop_eq_nil_iff.mpr (by omega)
      rw [this] at hd
      exact List.noConfusion hd
    simp only [dif_neg p1, dif_neg p2, hl, ho]
    split <;> exact ⟨rfl, by unfold proj; simp [hd, ho, hl, hln, hc], h1, h2⟩

theorem runOps_sim (ops : List POp) (w1 w2 : Nat) (st1 st2 : PState)
    (h1 : PWf st1) (h2 : PWf st2) (h : proj st1 = proj st2) :
    runOps w1 st1 ops = runOps w2 st2 ops := by
  induction ops generalizing st1 st2 with
  | nil => rfl
  | cons op rest ih =>
      cases op with
      | append chunk isLast =>
          exact ih (appendChunk st1 chunk isLast) (appendChunk st2 chunk isLast)
            (pwf_appendChunk _ _ _ h1) (pwf_appendChunk _ _ _ h2)
            (proj_appendChunk _ _ h1 h2 h chunk isLast)
      | advance =>
          obtain ⟨hobs, hproj, hw1, hw2⟩ := advance_sim w1 w2 st1 st2 h1 h2 h
          show (advanceP w1 st1).1 :: runOps w1 (advanceP w1 st1).2 rest =
            (advanceP w2 st2).1 :: runOps w2 (advanceP w2 st2).2 rest
          rw [hobs, ih _ _ hw1 hw2 hproj]

/-- Claim C7: for every sequence of preprocessor operations and every two
settings of the compaction watermark, the observable trace — every consumed
character with its reported absolute offset, line and column, and every
exhaustion signal — is identical; buffer compaction is invisible. -/
theorem claim_C7 (ops : List POp) (w1 w2 : Nat) :
    runOps w1 initP ops = runOps w2 initP ops :=
  runOps_sim ops w1 w2 initP initP (by unfold PWf initP; simp)
    (by unfold PWf initP; simp) rfl

end Preproc

namespace Tokenizer

theorem normDirect_cr (rest : List Char) :
    normDirect ('\r' :: rest) = '\n' :: normDirect (dropLF rest) := by
  match rest with
  | [] => rfl
  | d :: r =>
      by_cases h : d = '\n'
      · subst h; simp [normDirect, dropLF]
      · simp [normDirect, dropLF, h]

theorem normFold_eq (l : List Char) : ∀ (acc : List Char) (carry : Bool),
    normFinish (l.foldl normStep (acc, carry))
      = acc ++ (if carry then '\n' :: normDirect (dropLF l) else normDirect l) := by
  induction l with
  | nil =>
      intro acc carry
      cases carry <;> simp [normFinish, normDirect, dropLF]
  | cons c rest ih =>
      intro acc carry
      rw [List.foldl_cons]
      cases carry with
      | false =>
          by_cases h1 : c = '\r'
          · subst h1
            rw [show normStep (acc, false) '\r' = (acc, true) from rfl, ih,
              if_pos rfl, if_neg (Bool.false_ne_true), normDirect_cr]
          · rw [show normStep (acc, false) c = (acc ++ [c], false) by
                simp [normStep, normChar, h1], ih]
            simp only [if_neg (Bool.false_ne_true)]
            have : normDirect (c :: rest) = c :: normDirect rest := by
              match rest with
              | [] => simp [normDirect, h1]
              | d :: r => simp [normDirect, h1]
            rw [this, List.append_assoc]
            rfl
      | true =>
          by_cases h1 : c = '\n'
          · subst h1
            rw [show normStep (acc, true) '\n' = (acc ++ ['\n'], false) from rfl, ih]
            simp [dropLF]
          · by_cases h2 : c = '\r'
            · subst h2
              rw [show normStep (acc, true) '\r' = (acc ++ ['\n'], true) from rfl, ih]
              simp only [if_pos rfl, List.append_assoc]
              have : dropLF ('\r' :: rest) = '\r' :: rest := by simp [dropLF]
              rw [this, normDirect_cr]
              rfl
            · rw [show normStep (acc, true) c = (acc ++ ['\n', c], false) by
                  simp [normStep, normChar, h1, h2], ih]
              simp only [if_pos rfl, if_neg (Bool.false_ne_true)]
              have hd : dropLF (c :: rest) = c :: rest := by
                match c, rest with
                | c, rest =>
                    simp only [dropLF]
                    split
                    · rename_i heq; injection heq with he1 he2; exact absurd he1 h1
                    · rfl
              rw [hd]
              have : normDirect (c :: rest) = c :: normDirect rest := by
                match rest with
                | [] => simp [normDirect, h2]
                | d :: r => simp [normDirect, h2]
              rw [this, List.append_assoc]
              rfl

theorem normChunks_eq_normDirect (chunks : List (List Char)) :
    normChunks chunks = normDirect chunks.flatten := by
  rw [normChunks,
    show (chunks.foldl (fun s chunk => chunk.foldl normStep s) ([], false))
      = chunks.flatten.foldl normStep ([], false) from (List.foldl_flatten _ _ _).symm,
    normFold_eq]
  simp

theorem normChar_acc (acc : List Char) (carry : Bool) (c : Char) :
    normChar acc carry c
      = (acc ++ (normChar [] carry c).1, (normChar [] carry c).2) := by
  unfold normChar
  split_ifs <;> simp

theorem normStep_acc (l : List Char) : ∀ (acc : List Char) (carry : Bool),
    l.foldl normStep (acc, carry)
      = (acc ++ (l.foldl normStep ([], carry)).1,
         (l.foldl normStep ([], carry)).2) := by
  induction l with
  | nil => intro acc carry; simp
  | cons c rest ih =>
      intro acc carry
      rw [List.foldl_cons, List.foldl_cons]
      show rest.foldl normStep (normChar acc carry c)
        = (acc ++ (rest.foldl normStep (normChar [] carry c)).1,
           (rest.foldl normStep (normChar [] carry c)).2)
      rcases h : normChar [] carry c with ⟨w, cr⟩
      rw [normChar_acc acc carry c, h]
      dsimp only
      rw [ih (acc ++ w) cr, ih w cr]
      simp

theorem normFinish_append (a b : List Char) (f : Bool) :
    normFinish (a ++ b, f) = a ++ normFinish (b, f) := by
  unfold normFinish
  cases f <;> simp

theorem feed_append (a b : List Char) : ∀ cfg : Cfg,
    feed cfg (a ++ b)
      = ((feed cfg a).1 ++ (feed (feed cfg a).2 b).1,
         (feed (feed cfg a).2 b).2) := by
  induction a with
  | nil => intro cfg; simp [feed]
  | cons c rest ih =>
      intro cfg
      simp [feed, ih, List.append_assoc]

theorem run_eq_feed (l : List Char) : ∀ cfg : Cfg,
    run cfg l = (feed cfg l).1 ++ finalize (feed cfg l).2 := by
  induction l with
  | nil => intro cfg; simp [run, feed]
  | cons c rest ih =>
      intro cfg
      simp [run, feed, ih, List.append_assoc]

theorem run_append (a b : List Char) (cfg : Cfg) :
    run cfg (a ++ b) = (feed cfg a).1 ++ run (feed cfg a).2 b := by
  rw [run_eq_feed, run_eq_feed, feed_append]
  simp [List.append_assoc]

/-- The incremental session — machine configuration and CR carry suspended at
every chunk boundary and resumed by the next write — produces the run of the
machine over the fully normalized text. -/
theorem sessionRun_eq_run (chunks : List (List Char)) :
    ∀ (cfg : Cfg) (carry : Bool),
    sessionRun cfg carry chunks
      = run cfg (normFinish (chunks.flatten.foldl normStep ([], carry))) := by
  induction chunks with
  | nil =>
      intro cfg carry
      have h := (run_eq_feed (if carry then ['\n'] else []) cfg).symm
      show (feed cfg (if carry then ['\n'] else [])).1
          ++ finalize (feed cfg (if carry then ['\n'] else [])).2 = _
      rw [h]
      cases carry
      · rfl
      · rfl
  | cons chunk rest ih =>
      intro cfg carry
      rcases h : chunk.foldl normStep ([], carry) with ⟨w, cr⟩
      show (feed cfg (chunk.foldl normStep ([], carry)).1).1
          ++ sessionRun (feed cfg (chunk.foldl normStep ([], carry)).1).2
              (chunk.foldl normStep ([], carry)).2 rest
        = run cfg (normFinish ((chunk :: rest).flatten.foldl normStep ([], carry)))
      rw [h]
      dsimp only
      rw [ih, ← run_append]
      congr 1
      rw [show (chunk :: rest).flatten = chunk ++ rest.flatten from rfl,
        List.foldl_append, h, normStep_acc rest.flatten w cr, normFinish_append]

/-- Claim C1: chunk-boundary invariance.  For every initial mode, last
start-tag seed, foreign flag and every way of splitting a text into chunks,
the incremental session — in which the machine suspends with its full
configuration and the normalization carry at every chunk boundary and the
next write resumes it — produces exactly the token stream of the single-chunk
session over the concatenation; both equal one-shot tokenization of the
directly normalized whole text, and the incrementally assembled normalized
input is that text. -/
theorem claim_C1 (st : TState) (lastTag : List Char) (foreign : Bool)
    (chunks : List (List Char)) :
    sessionTokens st lastTag foreign chunks
      = sessionTokens st lastTag foreign [chunks.flatten] ∧
    sessionTokens st lastTag foreign chunks
      = tokenize st lastTag foreign (normDirect chunks.flatten) ∧
    normChunks chunks = normDirect chunks.flatten := by
  have key : ∀ ch : List (List Char),
      sessionTokens st lastTag foreign ch
        = tokenize st lastTag foreign (normDirect ch.flatten) := by
    intro ch
    unfold sessionTokens
    rw [sessionRun_eq_run, normFold_eq]
    simp [tokenize]
  have h1 := key chunks
  have h2 := key [chunks.flatten]
  simp only [List.flatten, List.append_nil] at h2
  exact ⟨h1.trans h2.symm, h1, normChunks_eq_normDirect chunks⟩

/-- Claim C4: in the Data state, `<![CDATA[ x ]]>` with `inForeignNode = true`
passes the bracketed content through as character data (split only by
subkind), every non-EOF token is character data and the concatenation is
exactly `" x "`; with `inForeignNode = false` the same input is a single
comment token via the bogus-comment fallback. -/
theorem claim_C4 :
    tokenize TState.data [] true "<![CDATA[ x ]]>".data =
      [Token.character CharKind.whitespace [' '] ⟨0, 10⟩,
       Token.character CharKind.regular ['x'] ⟨10, 11⟩,
       Token.character CharKind.whitespace [' '] ⟨11, 15⟩,
       Token.eof ⟨15, 15⟩] ∧
    ((tokenize TState.data [] true "<![CDATA[ x ]]>".data).filter
        (fun t => !isEofTok t)).all isCharTok = true ∧
    ((tokenize TState.data [] true "<![CDATA[ x ]]>".data).map charData).flatten
      = " x ".data ∧
    tokenize TState.data [] false "<![CDATA[ x ]]>".data =
      [Token.comment "[CDATA[ x ]]".data ⟨0, 15⟩, Token.eof ⟨15, 15⟩] := by
  refine ⟨by decide, by decide, by decide, by decide⟩

/-- Claim C5: malformed constructs recover as comments with nothing dropped —
`<? bogus ?>` is one comment token covering the whole input, as are a stray
`<!` construct and a `</` followed by a non-letter. -/
theorem claim_C5 :
    tokenize TState.data [] false "<? bogus ?>".data =
      [Token.comment "? bogus ?".data ⟨0, 11⟩, Token.eof ⟨11, 11⟩] ∧
    tokenize TState.data [] false "<! bogus >".data =
      [Token.comment " bogus ".data ⟨0, 10⟩, Token.eof ⟨10, 10⟩] ∧
    tokenize TState.data [] false "</3>".data =
      [Token.comment ['3'] ⟨0, 4⟩, Token.eof ⟨4, 4⟩] := by
  refine ⟨by decide, by decide, by decide⟩

theorem chain_mono {k' k k2 : Nat} {l : List Token} (hk : k' ≤ k)
    (h : Chain k l k2) : Chain k' l k2 := by
  cases l with
  | nil => exact le_trans hk h
  | cons t rest =>
      obtain ⟨a, b, hr⟩ := h
      exact ⟨le_trans hk a, b, hr⟩

theorem chain_append {k m k2 : Nat} {l1 l2 : List Token} (h1 : Chain k l1 m)
    (h2 : Chain m l2 k2) : Chain k (l1 ++ l2) k2 := by
  induction l1 generalizing k with
  | nil => exact chain_mono h1 h2
  | cons t rest ih =>
      obtain ⟨a, b, hr⟩ := h1
      exact ⟨a, b, ih hr⟩

theorem chain_extend {k m k2 : Nat} {l : List Token} (h : Chain k l m)
    (hm : m ≤ k2) : Chain k l k2 := by
  have := chain_append h (show Chain m [] k2 from hm)
  simpa using this

theorem appendChar_spec (cfg : Cfg) (c : Char) (a : Nat)
    (h1 : low cfg ≤ cfg.unitStart) (h2 : cfg.unitStart ≤ a) :
    Chain (low cfg) (appendChar cfg c a).1 (low (appendChar cfg c a).2) ∧
    low (appendChar cfg c a).2 ≤ (appendChar cfg c a).2.unitStart ∧
    (appendChar cfg c a).2.unitStart ≤ a ∧
    (appendChar cfg c a).2.state = cfg.state ∧
    (appendChar cfg c a).2.pos = cfg.pos ∧
    ∀ t ∈ (appendChar cfg c a).1, isEofTok t = false := by
  obtain ⟨st, pos, us, pend, ltag, fg⟩ := cfg
  cases pend with
  | none =>
      simp [appendChar, low, Chain] at h1 h2 ⊢
      omega
  | some trip =>
      obtain ⟨k0, d, s⟩ := trip
      by_cases hk : k0 = kindOf c
      · simp [appendChar, low, Chain, hk] at h1 h2 ⊢
        omega
      · simp [appendChar, low, Chain, hk, tokLoc, isEofTok] at h1 h2 ⊢
        omega

theorem appendList_spec (cs : List Char) : ∀ (cfg : Cfg) (a : Nat),
    low cfg ≤ cfg.unitStart → cfg.unitStart ≤ a →
    Chain (low cfg) (appendList cfg cs a).1 (low (appendList cfg cs a).2) ∧
    low (appendList cfg cs a).2 ≤ (appendList cfg cs a).2.unitStart ∧
    (appendList cfg cs a).2.unitStart ≤ a ∧
    (appendList cfg cs a).2.state = cfg.state ∧
    (appendList cfg cs a).2.pos = cfg.pos ∧
    ∀ t ∈ (appendList cfg cs a).1, isEofTok t = false := by
  induction cs with
  | nil =>
      intro cfg a h1 h2
      refine ⟨?_, h1, h2, rfl, rfl, by simp [appendList]⟩
      show Chain (low cfg) [] (low cfg)
      exact le_refl _
  | cons c rest ih =>
      intro cfg a h1 h2
      obtain ⟨hc1, hc2, hc3, hc4, hc5, hc6⟩ := appendChar_spec cfg c a h1 h2
      obtain ⟨hr1, hr2, hr3, hr4, hr5, hr6⟩ := ih (appendChar cfg c a).2 a hc2 hc3
      refine ⟨?_, hr2, hr3, by rw [show (appendList cfg (c :: rest) a).2
          = (appendList (appendChar cfg c a).2 rest a).2 from rfl, hr4, hc4],
        by rw [show (appendList cfg (c :: rest) a).2
          = (appendList (appendChar cfg c a).2 rest a).2 from rfl, hr5, hc5], ?_⟩
      · exact chain_append hc1 hr1
      · intro t ht
        rcases List.mem_append.mp ht with hm | hm
        · exact hc6 t hm
        · exact hr6 t hm

theorem flushPending_spec (cfg : Cfg) (endPos : Nat)
    (h1 : low cfg ≤ cfg.unitStart) (hE : cfg.unitStart ≤ endPos) :
    Chain (low cfg) (flushPending cfg endPos).1 (low (flushPending cfg endPos).2) ∧
    low (flushPending cfg endPos).2 ≤ (flushPending cfg endPos).2.unitStart ∧
    (flushPending cfg endPos).2.unitStart ≤ endPos ∧
    (flushPending cfg endPos).2.pending = none ∧
    (flushPending cfg endPos).2.state = cfg.state ∧
    (flushPending cfg endPos).2.pos = cfg.pos ∧
    ∀ t ∈ (flushPending cfg endPos).1, isEofTok t = false := by
  obtain ⟨st, pos, us, pend, ltag, fg⟩ := cfg
  cases pend with
  | none =>
      simp [flushPending, low, Chain] at h1 hE ⊢
      omega
  | some trip =>
      obtain ⟨k0, d, s⟩ := trip
      simp [flushPending, low, Chain, tokLoc, isEofTok] at h1 hE ⊢
      omega

theorem stStartOK_modeForTag (name : List Char) (u : Nat) :
    stStartOK (modeForTag name) u := by
  unfold modeForTag
  split_ifs <;> trivial

theorem emitTag_spec (cfg : Cfg) (t : TagData) (endPos : Nat)
    (h1 : low cfg ≤ cfg.unitStart) (hts : t.start = cfg.unitStart)
    (hE : cfg.unitStart ≤ endPos) :
    Chain (low cfg) (emitTagToken cfg t endPos).1 endPos ∧
    low (emitTagToken cfg t endPos).2 = endPos ∧
    (emitTagToken cfg t endPos).2.unitStart = endPos ∧
    (∀ u, stStartOK (emitTagToken cfg t endPos).2.state u) ∧
    (emitTagToken cfg t endPos).2.pos = cfg.pos ∧
    ∀ x ∈ (emitTagToken cfg t endPos).1, isEofTok x = false := by
  have hmode := stStartOK_modeForTag t.name
  obtain ⟨st, pos, us, pend, ltag, fg⟩ := cfg
  simp only at h1 hts hE
  cases pend with
  | none =>
      by_cases he : t.isEnd <;>
        simp_all [emitTagToken, flushPending, low, Chain, tokLoc, isEofTok,
          stStartOK]
  | some trip =>
      obtain ⟨k0, d, s⟩ := trip
      by_cases he : t.isEnd <;>
        simp_all [emitTagToken, flushPending, low, Chain, tokLoc, isEofTok,
          stStartOK]

theorem emitComment_spec (cfg : Cfg) (cd : CommentData) (endPos : Nat)
    (h1 : low cfg ≤ cfg.unitStart) (hcs : cd.start = cfg.unitStart)
    (hE : cfg.unitStart ≤ endPos) :
    Chain (low cfg) (emitCommentTok cfg cd endPos).1 endPos ∧
    low (emitCommentTok cfg cd endPos).2 = endPos ∧
    (emitCommentTok cfg cd endPos).2.unitStart = endPos ∧
    (emitCommentTok cfg cd endPos).2.state = TState.data ∧
    (emitCommentTok cfg cd endPos).2.pos = cfg.pos ∧
    ∀ x ∈ (emitCommentTok cfg cd endPos).1, isEofTok x = false := by
  obtain ⟨st, pos, us, pend, ltag, fg⟩ := cfg
  simp only at h1 hcs hE
  cases pend with
  | none =>
      simp_all [emitCommentTok, flushPending, low, Chain, tokLoc, isEofTok]
  | some trip =>
      obtain ⟨k0, d, s⟩ := trip
      simp_all [emitCommentTok, flushPending, low, Chain, tokLoc, isEofTok]

theorem emitDoctype_spec (cfg : Cfg) (start : Nat) (name : Option (List Char))
    (fq : Bool) (endPos : Nat)
    (h1 : low cfg ≤ cfg.unitStart) (hcs : start = cfg.unitStart)
    (hE : cfg.unitStart ≤ endPos) :
    Chain (low cfg) (emitDoctypeTok cfg start name fq endPos).1 endPos ∧
    low (emitDoctypeTok cfg start name fq endPos).2 = endPos ∧
    (emitDoctypeTok cfg start name fq endPos).2.unitStart = endPos ∧
    (emitDoctypeTok cfg start name fq endPos).2.state = TState.data ∧
    (emitDoctypeTok cfg start name fq endPos).2.pos = cfg.pos ∧
    ∀ x ∈ (emitDoctypeTok cfg start name fq endPos).1, isEofTok x = false := by
  obtain ⟨st, pos, us, pend, ltag, fg⟩ := cfg
  simp only at h1 hcs hE
  cases pend with
  | none =>
      simp_all [emitDoctypeTok, flushPending, low, Chain, tokLoc, isEofTok]
  | some trip =>
      obtain ⟨k0, d, s⟩ := trip
      simp_all [emitDoctypeTok, flushPending, low, Chain, tokLoc, isEofTok]

theorem low_mark (x : Cfg) (s' : TState) (p : Nat) (h1 : low x ≤ x.unitStart)
    (h2 : x.unitStart ≤ p) :
    low x ≤ low { x with state := s', unitStart := p } ∧
    low { x with state := s', unitStart := p } ≤ p := by
  obtain ⟨st, pos, us, pend, ltag, fg⟩ := x
  cases pend with
  | none => simp_all [low]
  | some trip =>
      obtain ⟨k0, d, s⟩ := trip
      simp_all [low]
      omega

theorem stepOut_pure (cfg : Cfg) (s' : TState) (hInv : Inv cfg)
    (hs : stStartOK s' cfg.unitStart) :
    StepOut cfg ([], { cfg with state := s' }) := by
  obtain ⟨st, pos, us, pend, ltag, fg⟩ := cfg
  obtain ⟨h1, h2, h3⟩ := hInv
  dsimp only at h1 h2 hs ⊢
  exact ⟨le_refl _, h1, by show us ≤ pos + 1; omega, hs, rfl, by simp⟩

theorem stepOut_mark (cfg : Cfg) (s' : TState) (hInv : Inv cfg)
    (hs : stStartOK s' cfg.pos) :
    StepOut cfg ([], { cfg with state := s', unitStart := cfg.pos }) := by
  obtain ⟨hm1, hm2⟩ := low_mark cfg s' cfg.pos hInv.1 hInv.2.1
  exact ⟨hm1, hm2, by show cfg.pos ≤ cfg.pos + 1; omega, hs, rfl, by simp⟩

theorem stepOut_append (cfg : Cfg) (c : Char) (hInv : Inv cfg)
    (hfree : ∀ u, stStartOK cfg.state u) :
    StepOut cfg (appendChar cfg c cfg.pos) := by
  obtain ⟨h1, h2, h3⟩ := hInv
  obtain ⟨hc1, hc2, hc3, hc4, hc5, hc6⟩ := appendChar_spec cfg c cfg.pos h1 h2
  exact ⟨hc1, hc2, by omega, by rw [hc4]; exact hfree _, hc5, hc6⟩

theorem stepOut_replayPure (cfg : Cfg) (cs : List Char) (s' : TState)
    (hInv : Inv cfg) (hfree : ∀ u, stStartOK s' u) :
    StepOut cfg
      ((appendList cfg cs cfg.unitStart).1,
       { (appendList cfg cs cfg.unitStart).2 with state := s' }) := by
  obtain ⟨h1, h2, h3⟩ := hInv
  obtain ⟨ha1, ha2, ha3, ha4, ha5, ha6⟩ :=
    appendList_spec cs cfg cfg.unitStart h1 (le_refl _)
  exact ⟨ha1, ha2,
    by show (appendList cfg cs cfg.unitStart).2.unitStart ≤ cfg.pos + 1; omega,
    hfree _, ha5, ha6⟩

theorem stepOut_replayMark (cfg : Cfg) (cs : List Char) (s' : TState)
    (hInv : Inv cfg) (hfree : ∀ u, stStartOK s' u) :
    StepOut cfg
      ((appendList cfg cs cfg.unitStart).1,
       { (appendList cfg cs cfg.unitStart).2 with
          state := s', unitStart := cfg.pos }) := by
  obtain ⟨h1, h2, h3⟩ := hInv
  obtain ⟨ha1, ha2, ha3, ha4, ha5, ha6⟩ :=
    appendList_spec cs cfg cfg.unitStart h1 (le_refl _)
  obtain ⟨hm1, hm2⟩ := low_mark (appendList cfg cs cfg.unitStart).2 s' cfg.pos
    ha2 (by omega)
  exact ⟨chain_extend ha1 hm1, hm2, by show cfg.pos ≤ cfg.pos + 1; omega,
    hfree _, ha5, ha6⟩

theorem stepOut_replayAppend (cfg : Cfg) (cs : List Char) (c : Char)
    (s' : TState) (hInv : Inv cfg) (hfree : ∀ u, stStartOK s' u) :
    StepOut cfg
      ((appendList cfg cs cfg.unitStart).1 ++
         (appendChar (appendList cfg cs cfg.unitStart).2 c cfg.pos).1,
       { (appendChar (appendList cfg cs cfg.unitStart).2 c cfg.pos).2 with
          state := s' }) := by
  obtain ⟨h1, h2, h3⟩ := hInv
  obtain ⟨ha1, ha2, ha3, ha4, ha5, ha6⟩ :=
    appendList_spec cs cfg cfg.unitStart h1 (le_refl _)
  obtain ⟨hc1, hc2, hc3, hc4, hc5, hc6⟩ :=
    appendChar_spec (appendList cfg cs cfg.unitStart).2 c cfg.pos ha2 (by omega)
  refine ⟨chain_append ha1 hc1, hc2,
    by show (appendChar (appendList cfg cs cfg.unitStart).2 c cfg.pos).2.unitStart ≤ cfg.pos + 1; omega,
    hfree _, by rw [hc5, ha5], ?_⟩
  intro t ht
  rcases List.mem_append.mp ht with hm | hm
  · exact ha6 t hm
  · exact hc6 t hm

theorem stepOut_emitTag (cfg : Cfg) (t : TagData) (hInv : Inv cfg)
    (hts : t.start = cfg.unitStart) :
    StepOut cfg (emitTagToken cfg t (cfg.pos + 1)) := by
  obtain ⟨h1, h2, h3⟩ := hInv
  obtain ⟨he1, he2, he3, he4, he5, he6⟩ :=
    emitTag_spec cfg t (cfg.pos + 1) h1 hts (by omega)
  refine ⟨?_, by omega, by omega, he4 _, he5, he6⟩
  rw [he2]
  exact he1

theorem stepOut_emitComment (cfg : Cfg) (cd : CommentData) (hInv : Inv cfg)
    (hcs : cd.start = cfg.unitStart) :
    StepOut cfg (emitCommentTok cfg cd (cfg.pos + 1)) := by
  obtain ⟨h1, h2, h3⟩ := hInv
  obtain ⟨he1, he2, he3, he4, he5, he6⟩ :=
    emitComment_spec cfg cd (cfg.pos + 1) h1 hcs (by omega)
  refine ⟨?_, by omega, by omega, by rw [he4]; trivial, he5, he6⟩
  rw [he2]
  exact he1

theorem stepOut_emitDoctype (cfg : Cfg) (start : Nat) (name : Option (List Char))
    (fq : Bool) (hInv : Inv cfg) (hcs : start = cfg.unitStart) :
    StepOut cfg (emitDoctypeTok cfg start name fq (cfg.pos + 1)) := by
  obtain ⟨h1, h2, h3⟩ := hInv
  obtain ⟨he1, he2, he3, he4, he5, he6⟩ :=
    emitDoctype_spec cfg start name fq (cfg.pos + 1) h1 hcs (by omega)
  refine ⟨?_, by omega, by omega, by rw [he4]; trivial, he5, he6⟩
  rw [he2]
  exact he1

theorem stepCore_spec (cfg : Cfg) (c : Char) (hInv : Inv cfg) :
    StepOut cfg (stepCore cfg c) := by
  obtain ⟨st, pos, us, pend, ltag, fg⟩ := cfg
  cases st with
  | data =>
      simp only [stepCore]
      split_ifs with h1
      · exact stepOut_mark _ _ hInv trivial
      · exact stepOut_append _ _ hInv (fun u => trivial)
  | plaintext =>
      simp only [stepCore]
      exact stepOut_append _ _ hInv (fun u => trivial)
  | rawText k =>
      simp only [stepCore]
      split_ifs with h1
      · exact stepOut_mark _ _ hInv trivial
      · exact stepOut_append _ _ hInv (fun u => trivial)
  | rawLessThan k =>
      simp only [stepCore]
      split_ifs with h1 h2
      · exact stepOut_pure _ _ hInv trivial
      · exact stepOut_replayMark _ _ _ hInv (fun u => trivial)
      · exact stepOut_replayAppend _ _ _ _ hInv (fun u => trivial)
  | rawEndTagOpen k =>
      simp only [stepCore]
      split_ifs with h1 h2
      · exact stepOut_pure _ _ hInv rfl
      · exact stepOut_replayMark _ _ _ hInv (fun u => trivial)
      · exact stepOut_replayAppend _ _ _ _ hInv (fun u => trivial)
  | rawEndTagName k t buf =>
      simp only [stepCore]
      split_ifs with h1 h2 h3 h4 h5
      · exact stepOut_pure _ _ hInv hInv.2.2
      · exact stepOut_pure _ _ hInv hInv.2.2
      · exact stepOut_pure _ _ hInv hInv.2.2
      · exact stepOut_emitTag _ _ hInv hInv.2.2
      · exact stepOut_replayMark _ _ _ hInv (fun u => trivial)
      · exact stepOut_replayAppend _ _ _ _ hInv (fun u => trivial)
  | tagOpen =>
      simp only [stepCore]
      split_ifs with h1 h2 h3 h4 h5
      · exact stepOut_pure _ _ hInv rfl
      · exact stepOut_pure _ _ hInv trivial
      · exact stepOut_pure _ _ hInv rfl
      · exact stepOut_pure _ _ hInv rfl
      · exact stepOut_replayMark _ _ _ hInv (fun u => trivial)
      · exact stepOut_replayAppend _ _ _ _ hInv (fun u => trivial)
  | endTagOpen =>
      simp only [stepCore]
      split_ifs with h1 h2
      · exact stepOut_pure _ _ hInv rfl
      · exact stepOut_pure _ _ hInv trivial
      · exact stepOut_pure _ _ hInv rfl
  | tagName t =>
      simp only [stepCore]
      split_ifs with h1 h2 h3
      · exact stepOut_pure _ _ hInv hInv.2.2
      · exact stepOut_pure _ _ hInv hInv.2.2
      · exact stepOut_emitTag _ _ hInv hInv.2.2
      · exact stepOut_pure _ _ hInv hInv.2.2
  | beforeAttrName t =>
      simp only [stepCore]
      split_ifs with h1 h2 h3
      · exact stepOut_pure _ (TState.beforeAttrName t) hInv hInv.2.2
      · exact stepOut_pure _ _ hInv hInv.2.2
      · exact stepOut_emitTag _ _ hInv hInv.2.2
      · exact stepOut_pure _ _ hInv hInv.2.2
  | attrName t an =>
      simp only [stepCore]
      split_ifs with h1 h2 h3 h4
      · exact stepOut_pure _ _ hInv hInv.2.2
      · exact stepOut_pure _ _ hInv hInv.2.2
      · exact stepOut_emitTag _ _ hInv hInv.2.2
      · exact stepOut_pure _ _ hInv hInv.2.2
      · exact stepOut_pure _ _ hInv hInv.2.2
  | afterAttrName t an =>
      simp only [stepCore]
      split_ifs with h1 h2 h3 h4
      · exact stepOut_pure _ (TState.afterAttrName t an) hInv hInv.2.2
      · exact stepOut_pure _ _ hInv hInv.2.2
      · exact stepOut_pure _ _ hInv hInv.2.2
      · exact stepOut_emitTag _ _ hInv hInv.2.2
      · exact stepOut_pure _ _ hInv hInv.2.2
  | beforeAttrValue t an =>
      simp only [stepCore]
      split_ifs with h1 h2 h3 h4
      · exact stepOut_pure _ (TState.beforeAttrValue t an) hInv hInv.2.2
      · exact stepOut_pure _ _ hInv hInv.2.2
      · exact stepOut_pure _ _ hInv hInv.2.2
      · exact stepOut_emitTag _ _ hInv hInv.2.2
      · exact stepOut_pure _ _ hInv hInv.2.2
  | attrValueDq t an av =>
      simp only [stepCore]
      split_ifs with h1
      · exact stepOut_pure _ _ hInv hInv.2.2
      · exact stepOut_pure _ _ hInv hInv.2.2
  | attrValueSq t an av =>
      simp only [stepCore]
      split_ifs with h1
      · exact stepOut_pure _ _ hInv hInv.2.2
      · exact stepOut_pure _ _ hInv hInv.2.2
  | attrValueUq t an av =>
      simp only [stepCore]
      split_ifs with h1 h2
      · exact stepOut_pure _ _ hInv hInv.2.2
      · exact stepOut_emitTag _ _ hInv hInv.2.2
      · exact stepOut_pure _ _ hInv hInv.2.2
  | afterAttrValueQuoted t =>
      simp only [stepCore]
      split_ifs with h1 h2 h3
      · exact stepOut_pure _ _ hInv hInv.2.2
      · exact stepOut_pure _ _ hInv hInv.2.2
      · exact stepOut_emitTag _ _ hInv hInv.2.2
      · exact stepOut_pure _ _ hInv hInv.2.2
  | selfClosingStart t =>
      simp only [stepCore]
      split_ifs with h1 h2 h3
      · exact stepOut_emitTag _ _ hInv hInv.2.2
      · exact stepOut_pure _ _ hInv hInv.2.2
      · exact stepOut_pure _ _ hInv hInv.2.2
      · exact stepOut_pure _ _ hInv hInv.2.2
  | mdo start seen =>
      simp only [stepCore]
      split_ifs with h1 h2 h3 h4 h5 h6
      · exact stepOut_pure _ _ hInv hInv.2.2
      · exact stepOut_pure _ _ hInv hInv.2.2
      · exact stepOut_pure _ _ hInv trivial
      · exact stepOut_pure _ _ hInv hInv.2.2
      · exact stepOut_pure _ _ hInv hInv.2.2
      · exact stepOut_emitComment _ _ hInv hInv.2.2
      · exact stepOut_pure _ _ hInv hInv.2.2
  | commentStart cd =>
      simp only [stepCore]
      split_ifs with h1 h2
      · exact stepOut_pure _ _ hInv hInv.2.2
      · exact stepOut_emitComment _ _ hInv hInv.2.2
      · exact stepOut_pure _ _ hInv hInv.2.2
  | commentStartDash cd =>
      simp only [stepCore]
      split_ifs with h1 h2
      · exact stepOut_pure _ _ hInv hInv.2.2
      · exact stepOut_emitComment _ _ hInv hInv.2.2
      · exact stepOut_pure _ _ hInv hInv.2.2
  | commentBody cd =>
      simp only [stepCore]
      split_ifs with h1
      · exact stepOut_pure _ _ hInv hInv.2.2
      · exact stepOut_pure _ _ hInv hInv.2.2
  | commentEndDash cd =>
      simp only [stepCore]
      split_ifs with h1
      · exact stepOut_pure _ _ hInv hInv.2.2
      · exact stepOut_pure _ _ hInv hInv.2.2
  | commentEnd cd =>
      simp only [stepCore]
      split_ifs with h1 h2 h3
      · exact stepOut_emitComment _ _ hInv hInv.2.2
      · exact stepOut_pure _ _ hInv hInv.2.2
      · exact stepOut_pure _ _ hInv hInv.2.2
      · exact stepOut_pure _ _ hInv hInv.2.2
  | commentEndBang cd =>
      simp only [stepCore]
      split_ifs with h1 h2
      · exact stepOut_pure _ _ hInv hInv.2.2
      · exact stepOut_emitComment _ _ hInv hInv.2.2
      · exact stepOut_pure _ _ hInv hInv.2.2
  | bogusComment cd =>
      simp only [stepCore]
      split_ifs with h1
      · exact stepOut_emitComment _ _ hInv hInv.2.2
      · exact stepOut_pure _ _ hInv hInv.2.2
  | doctypeStart start =>
      simp only [stepCore]
      split_ifs with h1 h2
      · exact stepOut_pure _ _ hInv hInv.2.2
      · exact stepOut_emitDoctype _ _ _ _ hInv hInv.2.2
      · exact stepOut_pure _ _ hInv hInv.2.2
  | beforeDoctypeName start =>
      simp only [stepCore]
      split_ifs with h1 h2
      · exact stepOut_pure _ (TState.beforeDoctypeName start) hInv hInv.2.2
      · exact stepOut_emitDoctype _ _ _ _ hInv hInv.2.2
      · exact stepOut_pure _ _ hInv hInv.2.2
  | doctypeName d =>
      simp only [stepCore]
      split_ifs with h1 h2
      · exact stepOut_pure _ _ hInv hInv.2.2
      · exact stepOut_emitDoctype _ _ _ _ hInv hInv.2.2
      · exact stepOut_pure _ _ hInv hInv.2.2
  | afterDoctypeName d =>
      simp only [stepCore]
      split_ifs with h1 h2
      · exact stepOut_pure _ (TState.afterDoctypeName d) hInv hInv.2.2
      · exact stepOut_emitDoctype _ _ _ _ hInv hInv.2.2
      · exact stepOut_pure _ _ hInv hInv.2.2
  | bogusDoctype d =>
      simp only [stepCore]
      split_ifs with h1
      · exact stepOut_emitDoctype _ _ _ _ hInv hInv.2.2
      · exact stepOut_pure _ (TState.bogusDoctype d) hInv hInv.2.2
  | cdataSection =>
      simp only [stepCore]
      split_ifs with h1
      · exact stepOut_pure _ _ hInv trivial
      · exact stepOut_append _ _ hInv (fun u => trivial)
  | cdataBracket =>
      simp only [stepCore]
      split_ifs with h1
      · exact stepOut_pure _ _ hInv trivial
      · exact stepOut_replayAppend _ _ _ _ hInv (fun u => trivial)
  | cdataEnd =>
      simp only [stepCore]
      split_ifs with h1 h2
      · exact stepOut_pure _ _ hInv trivial
      · exact stepOut_replayPure _ _ _ hInv (fun u => trivial)
      · exact stepOut_replayAppend _ _ _ _ hInv (fun u => trivial)

theorem step_spec (cfg : Cfg) (c : Char) (hInv : Inv cfg) :
    Inv (step cfg c).2 ∧ (step cfg c).2.pos = cfg.pos + 1 ∧
    Chain (low cfg) (step cfg c).1 (low (step cfg c).2) ∧
    ∀ t ∈ (step cfg c).1, isEofTok t = false := by
  obtain ⟨s1, s2, s3, s4, s5, s6⟩ := stepCore_spec cfg c hInv
  exact ⟨⟨s2, s3, s4⟩, rfl, s1, s6⟩

theorem finalizeFlush_spec (cfg : Cfg) (h1 : low cfg ≤ cfg.unitStart)
    (h2 : cfg.unitStart ≤ cfg.pos) :
    Chain (low cfg) (flushPending cfg cfg.pos).1 cfg.pos ∧
    ∀ t ∈ (flushPending cfg cfg.pos).1, isEofTok t = false := by
  obtain ⟨hf1, hf2, hf3, _, _, _, hf7⟩ := flushPending_spec cfg cfg.pos h1 h2
  exact ⟨chain_extend hf1 (le_trans hf2 hf3), hf7⟩

theorem finalizeReplay_spec (cfg : Cfg) (cs : List Char)
    (h1 : low cfg ≤ cfg.unitStart) (h2 : cfg.unitStart ≤ cfg.pos) :
    Chain (low cfg)
      (flushThrough (appendList cfg cs cfg.unitStart) cfg.pos).1 cfg.pos ∧
    ∀ t ∈ (flushThrough (appendList cfg cs cfg.unitStart) cfg.pos).1,
      isEofTok t = false := by
  obtain ⟨ha1, ha2, ha3, ha4, ha5, ha6⟩ :=
    appendList_spec cs cfg cfg.unitStart h1 (le_refl _)
  obtain ⟨hf1, hf2, hf3, _, _, _, hf7⟩ :=
    flushPending_spec (appendList cfg cs cfg.unitStart).2 cfg.pos ha2 (by omega)
  constructor
  · exact chain_append ha1 (chain_extend hf1 (le_trans hf2 hf3))
  · intro t ht
    rcases List.mem_append.mp ht with hm | hm
    · exact ha6 t hm
    · exact hf7 t hm

theorem finalizeComment_spec (cfg : Cfg) (cd : CommentData)
    (h1 : low cfg ≤ cfg.unitStart) (hcs : cd.start = cfg.unitStart)
    (h2 : cfg.unitStart ≤ cfg.pos) :
    Chain (low cfg) (emitCommentTok cfg cd cfg.pos).1 cfg.pos ∧
    ∀ t ∈ (emitCommentTok cfg cd cfg.pos).1, isEofTok t = false := by
  obtain ⟨he1, _, _, _, _, he6⟩ := emitComment_spec cfg cd cfg.pos h1 hcs h2
  exact ⟨he1, he6⟩

theorem finalizeDoctype_spec (cfg : Cfg) (start : Nat)
    (name : Option (List Char)) (fq : Bool)
    (h1 : low cfg ≤ cfg.unitStart) (hcs : start = cfg.unitStart)
    (h2 : cfg.unitStart ≤ cfg.pos) :
    Chain (low cfg) (emitDoctypeTok cfg start name fq cfg.pos).1 cfg.pos ∧
    ∀ t ∈ (emitDoctypeTok cfg start name fq cfg.pos).1, isEofTok t = false := by
  obtain ⟨he1, _, _, _, _, he6⟩ :=
    emitDoctype_spec cfg start name fq cfg.pos h1 hcs h2
  exact ⟨he1, he6⟩

theorem finalize_spec (cfg : Cfg) (hInv : Inv cfg) :
    ∃ l, finalize cfg = l ++ [Token.eof ⟨cfg.pos, cfg.pos⟩] ∧
      Chain (low cfg) l cfg.pos ∧ ∀ t ∈ l, isEofTok t = false := by
  obtain ⟨st, pos, us, pend, ltag, fg⟩ := cfg
  obtain ⟨h1, h2, h3⟩ := hInv
  cases st with
  | data =>
      exact ⟨_, rfl, (finalizeFlush_spec _ h1 h2).1, (finalizeFlush_spec _ h1 h2).2⟩
  | plaintext =>
      exact ⟨_, rfl, (finalizeFlush_spec _ h1 h2).1, (finalizeFlush_spec _ h1 h2).2⟩
  | rawText k =>
      exact ⟨_, rfl, (finalizeFlush_spec _ h1 h2).1, (finalizeFlush_spec _ h1 h2).2⟩
  | cdataSection =>
      exact ⟨_, rfl, (finalizeFlush_spec _ h1 h2).1, (finalizeFlush_spec _ h1 h2).2⟩
  | tagName t =>
      exact ⟨_, rfl, (finalizeFlush_spec _ h1 h2).1, (finalizeFlush_spec _ h1 h2).2⟩
  | beforeAttrName t =>
      exact ⟨_, rfl, (finalizeFlush_spec _ h1 h2).1, (finalizeFlush_spec _ h1 h2).2⟩
  | attrName t an =>
      exact ⟨_, rfl, (finalizeFlush_spec _ h1 h2).1, (finalizeFlush_spec _ h1 h2).2⟩
  | afterAttrName t an =>
      exact ⟨_, rfl, (finalizeFlush_spec _ h1 h2).1, (finalizeFlush_spec _ h1 h2).2⟩
  | beforeAttrValue t an =>
      exact ⟨_, rfl, (finalizeFlush_spec _ h1 h2).1, (finalizeFlush_spec _ h1 h2).2⟩
  | attrValueDq t an av =>
      exact ⟨_, rfl, (finalizeFlush_spec _ h1 h2).1, (finalizeFlush_spec _ h1 h2).2⟩
  | attrValueSq t an av =>
      exact ⟨_, rfl, (finalizeFlush_spec _ h1 h2).1, (finalizeFlush_spec _ h1 h2).2⟩
  | attrValueUq t an av =>
      exact ⟨_, rfl, (finalizeFlush_spec _ h1 h2).1, (finalizeFlush_spec _ h1 h2).2⟩
  | afterAttrValueQuoted t =>
      exact ⟨_, rfl, (finalizeFlush_spec _ h1 h2).1, (finalizeFlush_spec _ h1 h2).2⟩
  | selfClosingStart t =>
      exact ⟨_, rfl, (finalizeFlush_spec _ h1 h2).1, (finalizeFlush_spec _ h1 h2).2⟩
  | tagOpen =>
      exact ⟨_, rfl, (finalizeReplay_spec _ _ h1 h2).1,
        (finalizeReplay_spec _ _ h1 h2).2⟩
  | endTagOpen =>
      exact ⟨_, rfl, (finalizeReplay_spec _ _ h1 h2).1,
        (finalizeReplay_spec _ _ h1 h2).2⟩
  | rawLessThan k =>
      exact ⟨_, rfl, (finalizeReplay_spec _ _ h1 h2).1,
        (finalizeReplay_spec _ _ h1 h2).2⟩
  | rawEndTagOpen k =>
      exact ⟨_, rfl, (finalizeReplay_spec _ _ h1 h2).1,
        (finalizeReplay_spec _ _ h1 h2).2⟩
  | rawEndTagName k t buf =>
      exact ⟨_, rfl, (finalizeReplay_spec _ _ h1 h2).1,
        (finalizeReplay_spec _ _ h1 h2).2⟩
  | cdataBracket =>
      exact ⟨_, rfl, (finalizeReplay_spec _ _ h1 h2).1,
        (finalizeReplay_spec _ _ h1 h2).2⟩
  | cdataEnd =>
      exact ⟨_, rfl, (finalizeReplay_spec _ _ h1 h2).1,
        (finalizeReplay_spec _ _ h1 h2).2⟩
  | mdo start seen =>
      exact ⟨_, rfl, (finalizeComment_spec _ ⟨start, seen⟩ h1 h3 h2).1,
        (finalizeComment_spec _ ⟨start, seen⟩ h1 h3 h2).2⟩
  | commentStart cd =>
      exact ⟨_, rfl, (finalizeComment_spec _ cd h1 h3 h2).1,
        (finalizeComment_spec _ cd h1 h3 h2).2⟩
  | commentStartDash cd =>
      exact ⟨_, rfl, (finalizeComment_spec _ cd h1 h3 h2).1,
        (finalizeComment_spec _ cd h1 h3 h2).2⟩
  | commentBody cd =>
      exact ⟨_, rfl, (finalizeComment_spec _ cd h1 h3 h2).1,
        (finalizeComment_spec _ cd h1 h3 h2).2⟩
  | commentEndDash cd =>
      exact ⟨_, rfl, (finalizeComment_spec _ cd h1 h3 h2).1,
        (finalizeComment_spec _ cd h1 h3 h2).2⟩
  | commentEnd cd =>
      exact ⟨_, rfl, (finalizeComment_spec _ cd h1 h3 h2).1,
        (finalizeComment_spec _ cd h1 h3 h2).2⟩
  | commentEndBang cd =>
      exact ⟨_, rfl, (finalizeComment_spec _ cd h1 h3 h2).1,
        (finalizeComment_spec _ cd h1 h3 h2).2⟩
  | bogusComment cd =>
      exact ⟨_, rfl, (finalizeComment_spec _ cd h1 h3 h2).1,
        (finalizeComment_spec _ cd h1 h3 h2).2⟩
  | doctypeStart start =>
      exact ⟨_, rfl, (finalizeDoctype_spec _ start none true h1 h3 h2).1,
        (finalizeDoctype_spec _ start none true h1 h3 h2).2⟩
  | beforeDoctypeName start =>
      exact ⟨_, rfl, (finalizeDoctype_spec _ start none true h1 h3 h2).1,
        (finalizeDoctype_spec _ start none true h1 h3 h2).2⟩
  | doctypeName d =>
      exact ⟨_, rfl, (finalizeDoctype_spec _ d.start (some d.name) true h1 h3 h2).1,
        (finalizeDoctype_spec _ d.start (some d.name) true h1 h3 h2).2⟩
  | afterDoctypeName d =>
      exact ⟨_, rfl, (finalizeDoctype_spec _ d.start (some d.name) true h1 h3 h2).1,
        (finalizeDoctype_spec _ d.start (some d.name) true h1 h3 h2).2⟩
  | bogusDoctype d =>
      exact ⟨_, rfl, (finalizeDoctype_spec _ d.start (some d.name) true h1 h3 h2).1,
        (finalizeDoctype_spec _ d.start (some d.name) true h1 h3 h2).2⟩

theorem run_spec (input : List Char) : ∀ (cfg : Cfg), Inv cfg →
    (∃ l, run cfg input
        = l ++ [Token.eof ⟨cfg.pos + input.length, cfg.pos + input.length⟩] ∧
       ∀ t ∈ l, isEofTok t = false) ∧
    Chain (low cfg) (run cfg input) (cfg.pos + input.length) := by
  induction input with
  | nil =>
      intro cfg hInv
      obtain ⟨l, hl, hchain, hno⟩ := finalize_spec cfg hInv
      refine ⟨⟨l, by simpa using hl, hno⟩, ?_⟩
      show Chain (low cfg) (finalize cfg) (cfg.pos + [].length)
      rw [hl]
      refine chain_append hchain ?_
      exact ⟨le_refl _, le_refl _, le_refl _⟩
  | cons c rest ih =>
      intro cfg hInv
      obtain ⟨hI, hpos, hchain, hno⟩ := step_spec cfg c hInv
      obtain ⟨⟨l, hl, hlno⟩, hch2⟩ := ih (step cfg c).2 hI
      have heq : (step cfg c).2.pos + rest.length = cfg.pos + (c :: rest).length := by
        rw [hpos]
        simp
        omega
      rw [heq] at hl hch2
      constructor
      · refine ⟨(step cfg c).1 ++ l, ?_, ?_⟩
        · show (step cfg c).1 ++ run (step cfg c).2 rest
            = ((step cfg c).1 ++ l)
              ++ [Token.eof ⟨cfg.pos + (c :: rest).length,
                    cfg.pos + (c :: rest).length⟩]
          rw [hl, List.append_assoc]
        · intro t ht
          rcases List.mem_append.mp ht with hm | hm
          · exact hno t hm
          · exact hlno t hm
      · show Chain (low cfg) ((step cfg c).1 ++ run (step cfg c).2 rest)
          (cfg.pos + (c :: rest).length)
        exact chain_append hchain hch2

theorem inv_init (m : TokenizerMode) (lastTag : List Char) (foreign : Bool) :
    Inv (initCfg (modeState m) lastTag foreign) := by
  refine ⟨le_refl _, le_refl _, ?_⟩
  cases m <;> trivial

/-- Claim C2: every session — any seeded mode, last start tag and foreign
flag, any input — produces exactly one EndOfFile token, it is the last token
delivered, no token follows it, and its location satisfies
`startOffset = endOffset = total consumed input length`. -/
theorem claim_C2 (m : TokenizerMode) (lastTag : List Char) (foreign : Bool)
    (input : List Char) :
    (tokenize (modeState m) lastTag foreign input).countP isEofTok = 1 ∧
    ∃ l, tokenize (modeState m) lastTag foreign input
        = l ++ [Token.eof ⟨input.length, input.length⟩] ∧
      ∀ t ∈ l, isEofTok t = false := by
  obtain ⟨⟨l, hl, hno⟩, _⟩ := run_spec input _ (inv_init m lastTag foreign)
  simp only [initCfg, Nat.zero_add] at hl
  have hl2 : tokenize (modeState m) lastTag foreign input
      = l ++ [Token.eof ⟨input.length, input.length⟩] := hl
  refine ⟨?_, l, hl2, hno⟩
  rw [hl2, List.countP_append,
    List.countP_eq_zero.mpr (fun t ht => by simp [hno t ht])]
  rfl

/-- Claim C6: seeded with `lastStartTagName = "script"`, each of ScriptData,
RAWTEXT and RCDATA tokenizes `a<--d;</script><div>` as the character data
before the end tag, then EndTag `script`, then — back in Data mode — StartTag
`div`; with any `lastStartTagName` that does not case-insensitively equal
`script`, the buffered candidate end tag is flushed as character data and the
mode is retained, so the whole input is one character token. -/
theorem claim_C6 :
    (∀ k : RawKind,
      tokenize (TState.rawText k) "script".data false "a<--d;</script><div>".data =
        [Token.character CharKind.regular "a<--d;".data ⟨0, 6⟩,
         Token.endTag "script".data ⟨6, 15⟩,
         Token.startTag "div".data [] false ⟨15, 20⟩,
         Token.eof ⟨20, 20⟩]) ∧
    (∀ (k : RawKind) (last : List Char), lowerList last ≠ "script".data →
      tokenize (TState.rawText k) last false "a<--d;</script><div>".data =
        [Token.character CharKind.regular "a<--d;</script><div>".data ⟨0, 20⟩,
         Token.eof ⟨20, 20⟩]) := by
  constructor
  · intro k; cases k <;> decide
  · intro k last h
    cases k <;>
      simp +decide [tokenize, run, step, stepCore, initCfg, appendChar,
        appendList, flushPending, finalize, kindOf, isWS, lowNul, replNul,
        Ne.symm h]

/-- Concrete instance of claim C6 with the non-matching seed `style`. -/
theorem claim_C6_witness :
    lowerList "style".data ≠ "script".data ∧
    tokenize (TState.rawText RawKind.scriptData) "style".data false
        "a<--d;</script><div>".data =
      [Token.character CharKind.regular "a<--d;</script><div>".data ⟨0, 20⟩,
       Token.eof ⟨20, 20⟩] :=
  ⟨by decide, claim_C6.2 RawKind.scriptData "style".data (by decide)⟩

end Tokenizer

end Parse5
